import Mathlib

/-!
Verification of the Inventor_Scripts batch-export core: filename
sanitization and composition (`inventor_export_tool/naming.py`),
duplicate resolution (`resolve_duplicates`), assembly-tree traversal
(`inventor_api/traversal.py`) and the export execution loop
(`inventor_export_tool/orchestrator.py`), embedded shallowly as
executable Lean functions.

Modelling conventions:
* Python strings are Lean `String`s; `str.lower()` is `strLower`
  (ASCII case folding, the behaviour relevant to Windows paths).
* `os.path.splitext` / `os.path.dirname` / `os.path.join` are embedded
  at the level the tool uses them (Windows separators `\` and `/`,
  extension split at the last dot of the basename unless the basename
  is all dots, dirname strips trailing separators unless the head is
  all separators).  Drive-letter special cases of `ntpath` are not
  modelled separately; the compositions used by the code agree.
* The COM document graph is a finite list of documents referenced by
  path; a reference that raises is an unresolvable reference.
* The recursive traversal is embedded with an explicit fuel parameter
  (structural recursion) plus a proved theorem that the result is
  independent of the fuel once it is at least `startFuel`, which is the
  termination argument for the Python recursion.
-/

namespace InventorScripts

/-- Python `str.lower()` restricted to character-wise ASCII folding,
as applied to Windows file paths. -/
def strLower (s : String) : String := ⟨s.data.map Char.toLower⟩

/-- The characters invalid in Windows filenames, from the regex
`[<>:"/\\|?*\x00-\x1f]` in `naming.py`. -/
def isInvalidChar (c : Char) : Bool :=
  c = '<' || c = '>' || c = ':' || c = '"' || c = '/' || c = '\\' ||
    c = '|' || c = '?' || c = '*' || decide (c.toNat ≤ 31)

/-- Python `s.rstrip(". ")` on a character list. -/
def rstripDotSpace (cs : List Char) : List Char :=
  (cs.reverse.dropWhile (fun c => c = '.' || c = ' ')).reverse

/-- `sanitize_filename` from `inventor_export_tool/naming.py`: replace
invalid characters by `_`, strip trailing dots and spaces, fall back to
`"_"` when the result is empty. -/
def sanitize_filename (s : String) : String :=
  let sanitized := s.data.map (fun c => if isInvalidChar c then '_' else c)
  let stripped := rstripDotSpace sanitized
  if stripped.isEmpty then "_" else ⟨stripped⟩

/-- The decimal digit character for `n < 10`. -/
def digitChar (n : Nat) : Char := Char.ofNat (48 + n)

/-- Decimal digits of `n`, most significant first, with explicit fuel
(the fuel `n + 1` given by `natRepr` always suffices). -/
def digitsFuel : Nat → Nat → List Char
  | 0, _ => []
  | f + 1, n => if n < 10 then [digitChar n] else digitsFuel f (n / 10) ++ [digitChar (n % 10)]

/-- Python `str(n)` for a natural number: its decimal representation. -/
def natRepr (n : Nat) : String := ⟨digitsFuel (n + 1) n⟩

/-- Windows path separators (`ntpath.sep` and `ntpath.altsep`). -/
def isSepChar (c : Char) : Bool := c = '\\' || c = '/'

/-- Characters that terminate the right-to-left scan of
`os.path.splitext`. -/
def isSpecialChar (c : Char) : Bool := c = '.' || isSepChar c

/-- Right-to-left worker for `os.path.splitext` on the reversed
character list.  Returns `some (stemRev, extRev)` when the name splits:
the first special character from the right must be a dot, and the
basename portion before that dot must contain a non-dot character
(CPython `genericpath._splitext`). -/
def splitExtRev : List Char → Option (List Char × List Char)
  | [] => none
  | c :: rest =>
    if isSepChar c then none
    else if c = '.' then
      if (rest.takeWhile (fun x => !isSepChar x)).any (fun x => x ≠ '.') then
        some (rest, ['.'])
      else none
    else (splitExtRev rest).map (fun p => (p.1, c :: p.2))

/-- `os.path.splitext` on character lists. -/
def splitExtChars (cs : List Char) : List Char × List Char :=
  match splitExtRev cs.reverse with
  | none => (cs, [])
  | some p => (p.1.reverse, p.2.reverse)

/-- `os.path.splitext`: split a name into `(root, ext)`. -/
def splitExt (s : String) : String × String :=
  ((splitExtChars s.data).1.asString, (splitExtChars s.data).2.asString)

/-- Right-to-left worker for `os.path.dirname` on the reversed
character list: drop up to the last separator, then strip the trailing
separators of the head unless the head consists only of separators. -/
def dirNameRev : List Char → Option (List Char)
  | [] => none
  | c :: rest =>
    if isSepChar c then
      if rest.all isSepChar then some (c :: rest).reverse
      else some (rest.dropWhile isSepChar).reverse
    else dirNameRev rest

/-- `os.path.dirname`. -/
def dirName (s : String) : String := ⟨(dirNameRev s.data.reverse).getD []⟩

/-- `os.path.join` for the shapes the tool produces: append the tail to
the head, inserting a `\` unless the head is empty or already ends in a
separator. -/
def joinPath (d n : String) : String :=
  if d.data.isEmpty then n
  else if isSepChar (d.data.getLastD ' ') then ⟨d.data ++ n.data⟩
  else ⟨d.data ++ '\\' :: n.data⟩

/-! ## Data model (`inventor_export_tool/models.py`) -/

/-- `ComponentInfo` from `models.py`. -/
structure ComponentInfo where
  source_path : String
  display_name : String
  document_type : String
  revision : String
  is_top_level : Bool := false
  idw_path : Option String := none
  is_content_center : Bool := false
  is_suppressed : Bool := false
deriving DecidableEq, Repr

/-- `ExportItem` from `models.py`. -/
structure ExportItem where
  component : ComponentInfo
  export_type : String
  output_filename : String
  output_path : String
deriving DecidableEq, Repr

/-- A throwaway item used as the default of `List.getD`. -/
def dummyItem : ExportItem :=
  { component :=
      { source_path := "", display_name := "", document_type := "", revision := "" }
    export_type := "", output_filename := "", output_path := "" }

/-! ## Duplicate resolution (`resolve_duplicates` in
`inventor_export_tool/naming.py`) -/

/-- Lookup in the model of the Python dict `seen`. -/
def lookupSeen : List (String × Nat) → String → Option Nat
  | [], _ => none
  | (k, n) :: rest, key => if k = key then some n else lookupSeen rest key

/-- `seen[key] = n` on the model of the Python dict `seen`. -/
def bumpSeen : List (String × Nat) → String → Nat → List (String × Nat)
  | [], key, n => [(key, n)]
  | (k, m) :: rest, key, n =>
      if k = key then (k, n) :: rest else (k, m) :: bumpSeen rest key n

/-- The renaming applied to a colliding item: insert `_count` before the
extension and rebuild `output_path` from the unchanged directory. -/
def renameItem (item : ExportItem) (count : Nat) : ExportItem :=
  let name := (splitExt item.output_filename).1
  let ext := (splitExt item.output_filename).2
  let newName := name ++ "_" ++ natRepr count ++ ext
  { item with
      output_filename := newName
      output_path := joinPath (dirName item.output_path) newName }

/-- The left-to-right pass of `resolve_duplicates`, threading the
occurrence counter. -/
def resolveDupGo : List ExportItem → List (String × Nat) → List ExportItem
  | [], _ => []
  | item :: rest, seen =>
    let key := strLower item.output_filename
    match lookupSeen seen key with
    | some n => renameItem item (n + 1) :: resolveDupGo rest (bumpSeen seen key (n + 1))
    | none => item :: resolveDupGo rest ((key, 1) :: seen)

/-- `resolve_duplicates` from `inventor_export_tool/naming.py`. -/
def resolve_duplicates (items : List ExportItem) : List ExportItem :=
  resolveDupGo items []

/-! ## Assembly traversal (`inventor_api/traversal.py`) -/

/-- An occurrence inside an assembly: its suppression state, and the
path of the referenced document (`none` models a reference whose
resolution raises). -/
structure Occurrence where
  is_suppressed : Bool
  ref : Option String
deriving DecidableEq, Repr

/-- A document of the reference graph: `is_assembly` distinguishes
`AssemblyDocument` from part documents; `occurrences` is its ordered
child list (only consulted for assemblies). -/
structure InvDoc where
  full_path : String
  is_assembly : Bool
  is_content_center : Bool
  occurrences : List Occurrence
deriving DecidableEq, Repr

/-- `DiscoveredComponent` from `traversal.py`. -/
structure DiscoveredComponent where
  document : InvDoc
  is_top_level : Bool := false
  is_suppressed : Bool := false
  depth : Nat := 0
deriving DecidableEq, Repr

/-- The keyword options of `walk_assembly`, with their Python defaults. -/
structure WalkOptions where
  include_suppressed : Bool := false
  include_content_center : Bool := false
  max_depth : Option Nat := none
  include_parts : Bool := true
  include_assemblies : Bool := true
deriving DecidableEq, Repr

/-- Resolution of `occ.referenced_document` against the graph `G`:
lookup of the referenced path. -/
def resolve_ref (G : List InvDoc) : Option String → Option InvDoc
  | none => none
  | some s => G.find? (fun d => d.full_path = s)

/-- The dedup key of a document: `doc.full_path.lower()`. -/
def pathKey (d : InvDoc) : String := strLower d.full_path

/-- The guard `max_depth is None or current_depth < max_depth` before
recursing into a sub-assembly. -/
def depthAllows (maxd : Option Nat) (d : Nat) : Bool :=
  match maxd with
  | none => true
  | some k => decide (d < k)

/-- The emission step of `_walk_recursive`: the discovered component
for a resolved occurrence, when its kind passes the
`include_parts` / `include_assemblies` filters. -/
def emitComp (o : WalkOptions) (ref_doc : InvDoc) (sup : Bool) (depth : Nat) :
    List DiscoveredComponent :=
  if (!ref_doc.is_assembly && o.include_parts) ||
      (ref_doc.is_assembly && o.include_assemblies) then
    [{ document := ref_doc, is_suppressed := sup, depth := depth }]
  else []

/-- The body of `_walk_recursive`: iterate over the occurrence list,
threading the `visited` set, emitting discovered components in
pre-order and recursing into fresh sub-assemblies.  The fuel decreases
on every call; `startFuel` is proved sufficient.  Returns the final
`visited` list together with the emitted components. -/
def walkFuel (G : List InvDoc) (o : WalkOptions) :
    Nat → List Occurrence → Nat → List String → List String × List DiscoveredComponent
  | 0, _, _, visited => (visited, [])
  | _ + 1, [], _, visited => (visited, [])
  | fuel + 1, occ :: rest, depth, visited =>
    if occ.is_suppressed && !o.include_suppressed then
      walkFuel G o fuel rest depth visited
    else
      match resolve_ref G occ.ref with
      | none => walkFuel G o fuel rest depth visited
      | some ref_doc =>
        if pathKey ref_doc ∈ visited then
          walkFuel G o fuel rest depth visited
        else
          if ref_doc.is_content_center && !o.include_content_center then
            walkFuel G o fuel rest depth (pathKey ref_doc :: visited)
          else
            let sub :=
              if ref_doc.is_assembly && depthAllows o.max_depth depth then
                walkFuel G o fuel ref_doc.occurrences (depth + 1) (pathKey ref_doc :: visited)
              else (pathKey ref_doc :: visited, [])
            let cont := walkFuel G o fuel rest depth sub.1
            (cont.1, emitComp o ref_doc occ.is_suppressed depth ++ sub.2 ++ cont.2)

/-- The component emitted for the root assembly itself. -/
def rootComponent (root : InvDoc) : DiscoveredComponent :=
  { document := root, is_top_level := true, depth := 0 }

/-- The longest occurrence list of any document in the graph. -/
def maxOccs (G : List InvDoc) : Nat :=
  (G.map (fun d => d.occurrences.length)).foldr Nat.max 0

/-- The distinct dedup keys of the graph. -/
def uKeys (G : List InvDoc) : List String := (G.map pathKey).dedup

/-- The number of graph keys not yet visited. -/
def freeCount (G : List InvDoc) (v : List String) : Nat :=
  ((uKeys G).filter (fun k => !v.contains k)).length

/-- The termination potential of a traversal state: each call of
`walkFuel` strictly decreases it. -/
def phi (G : List InvDoc) (v : List String) (occs : List Occurrence) : Nat :=
  freeCount G v * (maxOccs G + 1) + occs.length + 1

/-- Fuel sufficient for any traversal of `G` starting at `root`. -/
def startFuel (G : List InvDoc) (root : InvDoc) : Nat :=
  (uKeys G).length * (maxOccs G + 1) + root.occurrences.length + 1

/-- `walk_assembly` with an explicit fuel: seed `visited` with the root
key, emit the root first, and descend unless `max_depth` rules out
depth 1 (the entry check `current_depth > max_depth` of
`_walk_recursive`). -/
def walkAssemblyFuel (G : List InvDoc) (root : InvDoc) (o : WalkOptions)
    (fuel : Nat) : List DiscoveredComponent :=
  match o.max_depth with
  | some k =>
      if 1 > k then [rootComponent root]
      else rootComponent root :: (walkFuel G o fuel root.occurrences 1 [pathKey root]).2
  | none => rootComponent root :: (walkFuel G o fuel root.occurrences 1 [pathKey root]).2

/-- `walk_assembly` from `inventor_api/traversal.py`. -/
def walk_assembly (G : List InvDoc) (root : InvDoc) (o : WalkOptions) :
    List DiscoveredComponent :=
  walkAssemblyFuel G root o (startFuel G root)

/-! ## Export execution loop (`ExportOrchestrator.export` in
`inventor_export_tool/orchestrator.py`)

The per-item side-effecting operation `_export_item` is the external
collaborator `op`: `.ok` models a normal return, `.error e` models an
exception with message `e`.  The cancellation event is the predicate
`cancel i`: whether `cancel_event.is_set()` holds at the check before
item `i`.  Wall-clock durations and the progress/log callbacks are
side effects with no bearing on the recorded results and are not
modelled. -/

/-- `ExportResult` from `models.py` (without the wall-clock duration). -/
structure ExportResultM where
  item : ExportItem
  success : Bool
  error_message : Option String := none
deriving DecidableEq, Repr

/-- The result recorded for one item: the `try/except` around
`_export_item`. -/
def itemResult (op : ExportItem → Except String Unit) (item : ExportItem) : ExportResultM :=
  match op item with
  | .ok _ => { item := item, success := true }
  | .error e => { item := item, success := false, error_message := some e }

/-- The `for` loop of `export`: check cancellation before each item,
record a result per executed item, never abort on item failure. -/
def exportLoop (op : ExportItem → Except String Unit) (cancel : Nat → Bool) :
    List ExportItem → Nat → List ExportResultM
  | [], _ => []
  | item :: rest, i =>
    if cancel i then []
    else itemResult op item :: exportLoop op cancel rest (i + 1)

/-- The same loop, also tracking the structured logger: `alive` is
whether the logger is still in place, `logFail i` is whether writing
the record of item `i` raises.  A failed write sets the logger to
`None` for the remainder of the run.  Returns the recorded results
together with the indices whose records were written successfully. -/
def exportLoopLog (op : ExportItem → Except String Unit) (cancel : Nat → Bool)
    (logFail : Nat → Bool) :
    List ExportItem → Nat → Bool → List ExportResultM × List Nat
  | [], _, _ => ([], [])
  | item :: rest, i, alive =>
    if cancel i then ([], [])
    else
      let r := itemResult op item
      if alive then
        if logFail i then
          let rec_rest := exportLoopLog op cancel logFail rest (i + 1) false
          (r :: rec_rest.1, rec_rest.2)
        else
          let rec_rest := exportLoopLog op cancel logFail rest (i + 1) true
          (r :: rec_rest.1, i :: rec_rest.2)
      else
        let rec_rest := exportLoopLog op cancel logFail rest (i + 1) false
        (r :: rec_rest.1, rec_rest.2)

/-- `succeeded = sum(1 for r in results if r.success)`. -/
def succeededCount (rs : List ExportResultM) : Nat :=
  (rs.filter (fun r => r.success)).length

/-- `failed = sum(1 for r in results if not r.success)`. -/
def failedCount (rs : List ExportResultM) : Nat :=
  (rs.filter (fun r => !r.success)).length

/-! ## Generic list helpers -/

theorem head?_dropWhile_not (p : α → Bool) :
    ∀ l : List α, ∀ c, (l.dropWhile p).head? = some c → p c = false := by
  intro l
  induction l with
  | nil => intro c h; simp [List.dropWhile] at h
  | cons a t ih =>
    intro c h
    by_cases ha : p a
    · rw [List.dropWhile_cons_of_pos ha] at h
      exact ih c h
    · rw [List.dropWhile_cons_of_neg ha] at h
      simp at h
      subst h
      simpa using ha

theorem dropWhile_eq_self_of (p : α → Bool) (l : List α)
    (h : ∀ c ∈ l, p c = false) : l.dropWhile p = l := by
  cases l with
  | nil => rfl
  | cons a t => exact List.dropWhile_cons_of_neg (by simp [h a (List.mem_cons_self a t)])

theorem mem_dropWhile (p : α → Bool) :
    ∀ l : List α, ∀ c, c ∈ l.dropWhile p → c ∈ l := by
  intro l
  induction l with
  | nil => intro c h; simp [List.dropWhile] at h
  | cons a t ih =>
    intro c h
    by_cases ha : p a
    · rw [List.dropWhile_cons_of_pos ha] at h
      exact List.mem_cons_of_mem a (ih c h)
    · rwa [List.dropWhile_cons_of_neg ha] at h

/-! ## Sanitization (claim C7) -/

theorem mem_rstripDotSpace (cs : List Char) (c : Char)
    (h : c ∈ rstripDotSpace cs) : c ∈ cs := by
  unfold rstripDotSpace at h
  rw [List.mem_reverse] at h
  have := mem_dropWhile _ _ _ h
  rwa [List.mem_reverse] at this

/-- C7 (counterexample): the input `"<<<"` consists entirely of
filesystem-invalid characters, yet `sanitize_filename` returns `"___"`
(one placeholder per character), not the single placeholder character
the claim promises. -/
theorem c7_counterexample :
    (∀ c ∈ ("<<<" : String).data, isInvalidChar c = true) ∧
      sanitize_filename "<<<" = "___" ∧ sanitize_filename "<<<" ≠ "_" := by
  refine ⟨by decide, by decide, by decide⟩

/-- C7 (amended): `sanitize_filename` is total: the result is always
non-empty, free of filesystem-invalid characters and of trailing dots
and spaces.  An input that is empty or consists entirely of dots and
spaces collapses to the single placeholder `"_"`; an input consisting
entirely of invalid characters becomes one placeholder per character
(not a single placeholder). -/
theorem c7_sanitize_total (s : String) :
    (sanitize_filename s ≠ "" ∧
      (∀ c ∈ (sanitize_filename s).data, isInvalidChar c = false) ∧
      (∀ c, (sanitize_filename s).data.getLast? = some c → c ≠ '.' ∧ c ≠ ' ')) ∧
    ((∀ c ∈ s.data, c = '.' ∨ c = ' ') → sanitize_filename s = "_") ∧
    (s.data ≠ [] → (∀ c ∈ s.data, isInvalidChar c = true) →
      (sanitize_filename s).data = s.data.map (fun _ => '_')) := by
  unfold sanitize_filename
  set sanitized := s.data.map (fun c => if isInvalidChar c then '_' else c) with hsan
  set stripped := rstripDotSpace sanitized with hstr
  have hmemstr : ∀ c ∈ stripped, isInvalidChar c = false := by
    intro c hc
    have hc' := mem_rstripDotSpace _ _ hc
    rw [hsan, List.mem_map] at hc'
    obtain ⟨a, _, ha⟩ := hc'
    by_cases hia : isInvalidChar a
    · rw [if_pos hia] at ha; subst ha; decide
    · rw [if_neg hia] at ha; subst ha; simpa using hia
  have hlaststr : ∀ c, stripped.getLast? = some c → c ≠ '.' ∧ c ≠ ' ' := by
    intro c hc
    rw [hstr] at hc
    unfold rstripDotSpace at hc
    rw [List.getLast?_reverse] at hc
    have := head?_dropWhile_not _ _ _ hc
    constructor <;> { intro h; subst h; simp at this }
  have hcollapse : (∀ c ∈ s.data, c = '.' ∨ c = ' ') → stripped = [] := by
    intro hall
    rw [hstr]
    unfold rstripDotSpace
    have : sanitized.reverse.dropWhile (fun c => c = '.' || c = ' ') = [] := by
      rw [List.dropWhile_eq_nil_iff]
      intro c hc
      rw [List.mem_reverse, hsan, List.mem_map] at hc
      obtain ⟨a, ha, hac⟩ := hc
      rcases hall a ha with h | h <;>
        · subst h
          rw [if_neg (by decide)] at hac
          subst hac
          decide
    rw [this]
    rfl
  have hallinv : (∀ c ∈ s.data, isInvalidChar c = true) →
      stripped = s.data.map (fun _ => '_') := by
    intro hall
    have hsan' : sanitized = s.data.map (fun _ => '_') := by
      rw [hsan]
      apply List.map_congr_left
      intro a ha
      simp [hall a ha]
    rw [hstr]
    unfold rstripDotSpace
    rw [dropWhile_eq_self_of, List.reverse_reverse, hsan']
    intro c hc
    rw [List.mem_reverse, hsan', List.mem_map] at hc
    obtain ⟨a, _, hac⟩ := hc
    subst hac
    decide
  refine ⟨?_, ?_, ?_⟩
  · by_cases he : stripped.isEmpty
    · rw [if_pos he]
      exact ⟨by decide, by decide, by decide⟩
    · rw [if_neg he]
      refine ⟨?_, hmemstr, hlaststr⟩
      intro h
      have : stripped = [] := by
        have := congrArg String.data h
        simpa using this
      rw [this] at he
      simp at he
  · intro hall
    have h0 : stripped.isEmpty = true := by rw [hcollapse hall]; rfl
    rw [if_pos h0]
  · intro hne hall
    have hst := hallinv hall
    have hnemp : ¬stripped.isEmpty = true := by
      rw [hst, List.isEmpty_iff]
      intro h
      exact hne (List.map_eq_nil_iff.mp h)
    rw [if_neg hnemp]
    exact hst

/-- C7 (witness): the amended theorem applied at concrete inputs. -/
theorem c7_witness :
    sanitize_filename "..." ≠ "" ∧ sanitize_filename "..." = "_" ∧
      (sanitize_filename "a<b").data = ("a_b" : String).data :=
  ⟨(c7_sanitize_total "...").1.1, (c7_sanitize_total "...").2.1 (by decide),
    by decide⟩

/-! ## Character arithmetic helpers -/

theorem charEq_iff_toNat (a b : Char) : a = b ↔ a.toNat = b.toNat := by
  constructor
  · intro h; rw [h]
  · intro h; exact Char.ext (UInt32.ext h)

theorem toNat_toLower (c : Char) :
    (Char.toLower c).toNat =
      if 65 ≤ c.toNat ∧ c.toNat ≤ 90 then c.toNat + 32 else c.toNat := by
  unfold Char.toLower
  by_cases h : 65 ≤ c.toNat ∧ c.toNat ≤ 90
  · rw [if_pos h, if_pos ⟨h.1, h.2⟩]
    unfold Char.ofNat
    rw [dif_pos (Or.inl (by omega))]
    rfl
  · rw [if_neg h, if_neg (by omega)]

theorem toLower_eq_iff (c d : Char) (h1 : ¬(65 ≤ d.toNat ∧ d.toNat ≤ 90))
    (h2 : ¬(97 ≤ d.toNat ∧ d.toNat ≤ 122)) : Char.toLower c = d ↔ c = d := by
  rw [charEq_iff_toNat, charEq_iff_toNat]
  have h := toNat_toLower c
  by_cases hr : 65 ≤ c.toNat ∧ c.toNat ≤ 90
  · rw [if_pos hr] at h; rw [h]; omega
  · rw [if_neg hr] at h; rw [h]

theorem isSepChar_toLower (c : Char) : isSepChar (Char.toLower c) = isSepChar c := by
  unfold isSepChar
  rw [decide_eq_decide.mpr (toLower_eq_iff c '\\' (by decide) (by decide)),
    decide_eq_decide.mpr (toLower_eq_iff c '/' (by decide) (by decide))]

theorem isSpecialChar_toLower (c : Char) :
    isSpecialChar (Char.toLower c) = isSpecialChar c := by
  unfold isSpecialChar
  rw [isSepChar_toLower,
    decide_eq_decide.mpr (toLower_eq_iff c '.' (by decide) (by decide))]

theorem toLower_of_small (c : Char) (h : c.toNat < 65) : Char.toLower c = c := by
  rw [charEq_iff_toNat, toNat_toLower, if_neg (by omega)]

/-! ## Decimal representation (`str(count)` in the f-string of
`resolve_duplicates`) -/

/-- The value read back from a digit list; used to invert `digitsFuel`. -/
def digitsVal (cs : List Char) : Nat :=
  cs.foldl (fun a c => a * 10 + (c.toNat - 48)) 0

theorem toNat_digitChar (n : Nat) (h : n < 10) : (digitChar n).toNat = 48 + n := by
  unfold digitChar Char.ofNat
  rw [dif_pos (Or.inl (by omega))]
  rfl

theorem digitsFuel_ne_nil : ∀ f n, n < f → digitsFuel f n ≠ [] := by
  intro f
  cases f with
  | zero => intro n h; omega
  | succ f =>
    intro n _
    unfold digitsFuel
    by_cases h10 : n < 10
    · rw [if_pos h10]; simp
    · rw [if_neg h10]; simp

theorem digitsFuel_range : ∀ f n, n < f → ∀ c ∈ digitsFuel f n,
    48 ≤ c.toNat ∧ c.toNat ≤ 57 := by
  intro f
  induction f with
  | zero => intro n h; omega
  | succ f ih =>
    intro n hn c hc
    unfold digitsFuel at hc
    by_cases h10 : n < 10
    · rw [if_pos h10] at hc
      simp at hc
      subst hc
      rw [toNat_digitChar n h10]
      omega
    · rw [if_neg h10] at hc
      rcases List.mem_append.mp hc with h | h
      · exact ih (n / 10) (by omega) c h
      · simp at h
        subst h
        rw [toNat_digitChar _ (Nat.mod_lt _ (by omega))]
        have := Nat.mod_lt n (show 0 < 10 by omega)
        omega

theorem foldl_digits_append (cs : List Char) (c : Char) (a : Nat) :
    (cs ++ [c]).foldl (fun a c => a * 10 + (c.toNat - 48)) a =
      (cs.foldl (fun a c => a * 10 + (c.toNat - 48)) a) * 10 + (c.toNat - 48) := by
  rw [List.foldl_append]
  rfl

theorem digitsFuel_val : ∀ f n, n < f → digitsVal (digitsFuel f n) = n := by
  intro f
  induction f with
  | zero => intro n h; omega
  | succ f ih =>
    intro n hn
    unfold digitsFuel
    by_cases h10 : n < 10
    · rw [if_pos h10]
      unfold digitsVal
      simp [toNat_digitChar n h10]
    · rw [if_neg h10]
      unfold digitsVal
      rw [foldl_digits_append]
      have hv := ih (n / 10) (by omega)
      unfold digitsVal at hv
      rw [hv, toNat_digitChar _ (Nat.mod_lt _ (by omega))]
      have := Nat.div_add_mod n 10
      omega

theorem natRepr_inj (a b : Nat) (h : natRepr a = natRepr b) : a = b := by
  unfold natRepr at h
  have hd : digitsFuel (a + 1) a = digitsFuel (b + 1) b := by
    have := congrArg String.data h
    simpa using this
  have ha := digitsFuel_val (a + 1) a (by omega)
  have hb := digitsFuel_val (b + 1) b (by omega)
  rw [hd] at ha
  rw [ha] at hb
  omega

theorem natRepr_chars (n : Nat) : ∀ c ∈ (natRepr n).data,
    48 ≤ c.toNat ∧ c.toNat ≤ 57 := by
  intro c hc
  exact digitsFuel_range (n + 1) n (by omega) c hc

theorem natRepr_ne_empty (n : Nat) : (natRepr n).data ≠ [] := by
  exact digitsFuel_ne_nil (n + 1) n (by omega)

theorem strLower_natRepr (n : Nat) : strLower (natRepr n) = natRepr n := by
  unfold strLower
  have : (natRepr n).data.map Char.toLower = (natRepr n).data := by
    conv_rhs => rw [← List.map_id (natRepr n).data]
    apply List.map_congr_left
    intro c hc
    have := natRepr_chars n c hc
    exact toLower_of_small c (by omega)
  rw [this]

/-! ## Structure of `splitExt` -/

theorem splitExtChars_of_rev_none (cs : List Char)
    (h : splitExtRev cs.reverse = none) : splitExtChars cs = (cs, []) := by
  unfold splitExtChars
  rw [h]

theorem splitExtChars_of_rev_some (cs b e : List Char)
    (h : splitExtRev cs.reverse = some (b, e)) :
    splitExtChars cs = (b.reverse, e.reverse) := by
  unfold splitExtChars
  rw [h]

theorem not_special_not_sep (c : Char) (h : isSpecialChar c = false) :
    isSepChar c = false := by
  unfold isSpecialChar at h
  rcases Bool.or_eq_false_iff.mp h with ⟨_, h2⟩
  exact h2

theorem not_special_ne_dot (c : Char) (h : isSpecialChar c = false) : c ≠ '.' := by
  unfold isSpecialChar at h
  rcases Bool.or_eq_false_iff.mp h with ⟨h1, _⟩
  simpa using h1

theorem splitExtRev_append_nonspecial (l r : List Char)
    (h : ∀ c ∈ l, isSpecialChar c = false) :
    splitExtRev (l ++ r) = (splitExtRev r).map (fun p => (p.1, l ++ p.2)) := by
  induction l with
  | nil =>
    simp only [List.nil_append]
    cases splitExtRev r <;> rfl
  | cons c t ih =>
    have hc := h c (List.mem_cons_self c t)
    rw [List.cons_append]
    have hstep : splitExtRev (c :: (t ++ r)) =
        (splitExtRev (t ++ r)).map (fun p => (p.1, c :: p.2)) := by
      conv_lhs => rw [splitExtRev]
      rw [if_neg (by simpa using not_special_not_sep c hc),
        if_neg (not_special_ne_dot c hc)]
    rw [hstep, ih (fun x hx => h x (List.mem_cons_of_mem c hx))]
    cases splitExtRev r <;> rfl

theorem splitExtRev_some (r b e : List Char) (h : splitExtRev r = some (b, e)) :
    ∃ t : List Char, e = t ++ ['.'] ∧ (∀ c ∈ t, isSpecialChar c = false) ∧
      r = t ++ '.' :: b ∧
      (b.takeWhile (fun x => !isSepChar x)).any (fun x => x ≠ '.') = true := by
  induction r generalizing b e with
  | nil => simp [splitExtRev] at h
  | cons c rest ih =>
    unfold splitExtRev at h
    by_cases hsep : isSepChar c
    · rw [if_pos (by simpa using hsep)] at h
      simp at h
    · rw [if_neg (by simpa using hsep)] at h
      by_cases hdot : c = '.'
      · rw [if_pos hdot] at h
        by_cases hcond :
            (rest.takeWhile (fun x => !isSepChar x)).any (fun x => x ≠ '.') = true
        · rw [if_pos hcond] at h
          obtain ⟨hb, he⟩ := Prod.mk.injEq .. ▸ Option.some.injEq .. ▸ h
          refine ⟨[], by simp [← he], by simp, by simp [hb, hdot], ?_⟩
          rw [← hb]
          exact hcond
        · rw [if_neg hcond] at h
          simp at h
      · rw [if_neg hdot] at h
        cases hr : splitExtRev rest with
        | none => rw [hr] at h; simp at h
        | some p =>
          rw [hr] at h
          obtain ⟨b', e'⟩ := p
          simp at h
          obtain ⟨hb, he⟩ := h
          obtain ⟨t, het, hts, hrs, hcond⟩ := ih b' e' hr
          refine ⟨c :: t, ?_, ?_, ?_, ?_⟩
          · rw [← he, het]; rfl
          · intro x hx
            rcases List.mem_cons.mp hx with hx | hx
            · subst hx
              unfold isSpecialChar
              simp [hdot, hsep]
            · exact hts x hx
          · rw [hrs, ← hb]; rfl
          · rw [← hb]; exact hcond

theorem splitExtChars_append (cs : List Char) :
    (splitExtChars cs).1 ++ (splitExtChars cs).2 = cs := by
  cases h : splitExtRev cs.reverse with
  | none => rw [splitExtChars_of_rev_none cs h]; simp
  | some p =>
    obtain ⟨b, e⟩ := p
    rw [splitExtChars_of_rev_some cs b e h]
    obtain ⟨t, het, hts, hrs, hcond⟩ := splitExtRev_some _ _ _ h
    have : cs = (t ++ '.' :: b).reverse := by
      rw [← hrs, List.reverse_reverse]
    rw [this, het]
    simp

/-- Appending a non-empty, special-character-free suffix to the stem
leaves the extension of a name unchanged (the renaming step of
`resolve_duplicates` preserves the extension). -/
theorem splitExtChars_suffix (cs suf : List Char) (hne : suf ≠ [])
    (hns : ∀ c ∈ suf, isSpecialChar c = false) :
    splitExtChars ((splitExtChars cs).1 ++ suf ++ (splitExtChars cs).2) =
      ((splitExtChars cs).1 ++ suf, (splitExtChars cs).2) := by
  cases h : splitExtRev cs.reverse with
  | none =>
    rw [splitExtChars_of_rev_none cs h]
    simp only [List.append_nil]
    apply splitExtChars_of_rev_none
    rw [List.reverse_append,
      splitExtRev_append_nonspecial suf.reverse cs.reverse
        (fun c hc => hns c (List.mem_reverse.mp hc)),
      h]
    rfl
  | some p =>
    obtain ⟨b, e⟩ := p
    rw [splitExtChars_of_rev_some cs b e h]
    obtain ⟨t, het, hts, hrs, hcond⟩ := splitExtRev_some _ _ _ h
    obtain ⟨c0, hc0⟩ := List.exists_mem_of_ne_nil suf hne
    have hrev : (b.reverse ++ suf ++ e.reverse).reverse =
        t ++ '.' :: (suf.reverse ++ b) := by
      rw [het]
      simp
    have hsplit : splitExtRev (b.reverse ++ suf ++ e.reverse).reverse =
        some (suf.reverse ++ b, t ++ ['.']) := by
      rw [hrev, splitExtRev_append_nonspecial t _ hts]
      unfold splitExtRev
      rw [if_neg (by decide), if_pos rfl, if_pos ?_]
      · rfl
      · have hsufsep : ∀ c ∈ suf.reverse, (!isSepChar c) = true := by
          intro c hc
          simp [not_special_not_sep c (hns c (List.mem_reverse.mp hc))]
        rw [List.takeWhile_append_of_pos hsufsep, List.any_append]
        apply Bool.or_eq_true_iff.mpr
        left
        rw [List.any_eq_true]
        exact ⟨c0, List.mem_reverse.mpr hc0,
          by simpa using not_special_ne_dot c0 (hns c0 hc0)⟩
    rw [splitExtChars_of_rev_some _ _ _ hsplit]
    rw [het]
    simp

theorem splitExtRev_map_toLower : ∀ l : List Char,
    splitExtRev (l.map Char.toLower) =
      (splitExtRev l).map (fun p => (p.1.map Char.toLower, p.2.map Char.toLower)) := by
  intro l
  induction l with
  | nil => rfl
  | cons c rest ih =>
    rw [List.map_cons]
    by_cases hsep : isSepChar c = true
    · have l1 : splitExtRev (Char.toLower c :: rest.map Char.toLower) = none := by
        rw [splitExtRev, if_pos (by rw [isSepChar_toLower]; exact hsep)]
      have r1 : splitExtRev (c :: rest) = none := by
        rw [splitExtRev, if_pos hsep]
      rw [l1, r1]
      rfl
    · by_cases hdot : c = '.'
      · subst hdot
        have ht : Char.toLower '.' = '.' := by decide
        rw [ht]
        conv_lhs => rw [splitExtRev]
        conv_rhs => rw [splitExtRev]
        rw [if_neg (by simpa using hsep), if_pos rfl]
        have hcond :
            ((rest.map Char.toLower).takeWhile (fun x => !isSepChar x)).any
                (fun x => x ≠ '.') =
              (rest.takeWhile (fun x => !isSepChar x)).any (fun x => x ≠ '.') := by
          rw [List.takeWhile_map, List.any_map]
          have e1 : ((fun x => !isSepChar x) ∘ Char.toLower) =
              (fun x => !isSepChar x) := by
            funext x
            simp [Function.comp, isSepChar_toLower]
          have e2 : ((fun x => decide ¬(x = '.')) ∘ Char.toLower) =
              (fun x => decide ¬(x = '.')) := by
            funext x
            simp only [Function.comp]
            exact decide_eq_decide.mpr
              (not_congr (toLower_eq_iff x '.' (by decide) (by decide)))
          rw [e1]
          congr 1
        rw [hcond]
        by_cases hc2 :
            (rest.takeWhile (fun x => !isSepChar x)).any (fun x => x ≠ '.') = true
        · rw [if_pos hc2, if_pos hc2]
          rw [if_neg (by simpa using hsep)]
          simp [ht]
        · rw [if_neg hc2, if_neg hc2]
          rw [if_neg (by simpa using hsep)]
          rfl
      · have hd2 : ¬(Char.toLower c = '.') := fun hh =>
          hdot ((toLower_eq_iff c '.' (by decide) (by decide)).mp hh)
        have l1 : splitExtRev (Char.toLower c :: rest.map Char.toLower) =
            (splitExtRev (rest.map Char.toLower)).map
              (fun p => (p.1, Char.toLower c :: p.2)) := by
          rw [splitExtRev, if_neg (by rw [isSepChar_toLower]; simpa using hsep),
            if_neg hd2]
        have r1 : splitExtRev (c :: rest) =
            (splitExtRev rest).map (fun p => (p.1, c :: p.2)) := by
          rw [splitExtRev, if_neg (by simpa using hsep), if_neg hdot]
        rw [l1, r1, ih]
        cases splitExtRev rest <;> rfl

theorem splitExtChars_map_toLower (cs : List Char) :
    splitExtChars (cs.map Char.toLower) =
      ((splitExtChars cs).1.map Char.toLower, (splitExtChars cs).2.map Char.toLower) := by
  unfold splitExtChars
  rw [← List.map_reverse, splitExtRev_map_toLower]
  cases splitExtRev cs.reverse with
  | none => simp
  | some p => simp

/-! ## Structure of `dirName` and `joinPath` -/

theorem dirNameRev_of_nosep : ∀ l : List Char,
    (∀ c ∈ l, isSepChar c = false) → dirNameRev l = none := by
  intro l
  induction l with
  | nil => intro _; rfl
  | cons c rest ih =>
    intro h
    rw [dirNameRev, if_neg (by simp [h c (List.mem_cons_self c rest)])]
    exact ih (fun x hx => h x (List.mem_cons_of_mem c hx))

theorem dirNameRev_append_nosep : ∀ l r : List Char,
    (∀ c ∈ l, isSepChar c = false) → dirNameRev (l ++ r) = dirNameRev r := by
  intro l r
  induction l with
  | nil => intro _; rfl
  | cons c rest ih =>
    intro h
    rw [List.cons_append, dirNameRev,
      if_neg (by simp [h c (List.mem_cons_self c rest)])]
    exact ih (fun x hx => h x (List.mem_cons_of_mem c hx))

theorem dirName_of_nosep (n : String) (h : ∀ c ∈ n.data, isSepChar c = false) :
    dirName n = "" := by
  unfold dirName
  rw [dirNameRev_of_nosep _ (fun c hc => h c (List.mem_reverse.mp hc))]
  rfl

/-- Shape of a `dirNameRev` output: non-empty, and either all
separators or ending in a non-separator. -/
theorem dirNameRev_shape : ∀ l out : List Char, dirNameRev l = some out →
    out.reverse ≠ [] ∧
      (out.reverse.all isSepChar = true ∨
        ∃ c rest', out.reverse = c :: rest' ∧ isSepChar c = false) := by
  intro l
  induction l with
  | nil => intro out h; simp [dirNameRev] at h
  | cons c rest ih =>
    intro out h
    rw [dirNameRev] at h
    by_cases hsep : isSepChar c = true
    · rw [if_pos hsep] at h
      by_cases hall : rest.all isSepChar = true
      · rw [if_pos hall] at h
        have hout : out = (c :: rest).reverse := by
          exact (Option.some.injEq .. ▸ h).symm
        rw [hout, List.reverse_reverse]
        refine ⟨by simp, Or.inl ?_⟩
        rw [List.all_eq_true]
        intro x hx
        rcases List.mem_cons.mp hx with hx | hx
        · subst hx; exact hsep
        · exact List.all_eq_true.mp hall x hx
      · rw [if_neg hall] at h
        have hout : out = (rest.dropWhile isSepChar).reverse := by
          exact (Option.some.injEq .. ▸ h).symm
        have hdw : rest.dropWhile isSepChar ≠ [] := by
          intro hnil
          apply hall
          rw [List.all_eq_true]
          exact fun x hx => List.dropWhile_eq_nil_iff.mp hnil x hx
        rw [hout, List.reverse_reverse]
        refine ⟨hdw, Or.inr ?_⟩
        cases hd : rest.dropWhile isSepChar with
        | nil => exact absurd hd hdw
        | cons c0 t0 =>
          refine ⟨c0, t0, rfl, ?_⟩
          have := head?_dropWhile_not isSepChar rest c0 (by rw [hd]; rfl)
          exact this
    · rw [if_neg hsep] at h
      exact ih out h

/-- Rebuilding a path from an existing directory and a separator-free
non-empty name yields a path with the same directory (the
`os.path.join(os.path.dirname(p), name)` step of `resolve_duplicates`
keeps the directory). -/
theorem dirName_joinPath_dirName (p n : String)
    (hns : ∀ c ∈ n.data, isSepChar c = false) :
    dirName (joinPath (dirName p) n) = dirName p := by
  cases h : dirNameRev p.data.reverse with
  | none =>
    have hdp : dirName p = "" := by unfold dirName; rw [h]; rfl
    rw [hdp]
    have : joinPath "" n = n := by
      unfold joinPath
      rw [if_pos (show ("" : String).data.isEmpty = true from rfl)]
    rw [this]
    exact dirName_of_nosep n hns
  | some out =>
    obtain ⟨hno, hsh⟩ := dirNameRev_shape _ _ h
    have hdp : dirName p = ⟨out⟩ := by unfold dirName; rw [h]; rfl
    have houtne : out ≠ [] := by
      intro hnil; apply hno; rw [hnil]; rfl
    rw [hdp]
    rcases hsh with hall | ⟨c0, rest0, hrev, hc0⟩
    · -- the directory is all separators: join appends directly
      have hlast : isSepChar (out.getLastD ' ') = true := by
        rw [List.getLastD_eq_getLast?, ← List.head?_reverse]
        cases hrv : out.reverse with
        | nil => exact absurd hrv hno
        | cons a t =>
          have := List.all_eq_true.mp (hrv ▸ hall) a (List.mem_cons_self a t)
          simpa using this
      have hj : joinPath ⟨out⟩ n = ⟨out ++ n.data⟩ := by
        unfold joinPath
        rw [if_neg (by simpa [List.isEmpty_iff] using houtne), if_pos hlast]
      rw [hj]
      have h2 : dirNameRev (out ++ n.data).reverse = some out := by
        rw [List.reverse_append,
          dirNameRev_append_nosep _ _ (fun c hc => hns c (List.mem_reverse.mp hc))]
        cases hrv : out.reverse with
        | nil => exact absurd hrv hno
        | cons a t =>
          have ha := List.all_eq_true.mp (hrv ▸ hall) a (List.mem_cons_self a t)
          have hta : t.all isSepChar = true := by
            rw [List.all_eq_true]
            exact fun x hx =>
              List.all_eq_true.mp (hrv ▸ hall) x (List.mem_cons_of_mem a hx)
          rw [dirNameRev, if_pos ha, if_pos hta, ← hrv, List.reverse_reverse]
      unfold dirName
      show (⟨(dirNameRev (out ++ n.data).reverse).getD []⟩ : String) = ⟨out⟩
      rw [h2]
      rfl
    · -- the directory ends in a non-separator: join inserts a backslash
      have hlast : isSepChar (out.getLastD ' ') = false := by
        rw [List.getLastD_eq_getLast?, ← List.head?_reverse, hrev]
        simpa using hc0
      have hj : joinPath ⟨out⟩ n = ⟨out ++ '\\' :: n.data⟩ := by
        unfold joinPath
        rw [if_neg (by simpa [List.isEmpty_iff] using houtne),
          if_neg (by simp only [hlast]; simp)]
      rw [hj]
      have h2 : dirNameRev (out ++ '\\' :: n.data).reverse = some out := by
        have hr3 : (out ++ '\\' :: n.data).reverse =
            n.data.reverse ++ '\\' :: out.reverse := by
          simp
        rw [hr3,
          dirNameRev_append_nosep _ _ (fun c hc => hns c (List.mem_reverse.mp hc)),
          dirNameRev, if_pos (by decide)]
        have hnall : out.reverse.all isSepChar = false := by
          rw [hrev]
          simp [hc0]
        rw [if_neg (by simp [hnall]), hrev,
          List.dropWhile_cons_of_neg (by simp [hc0]), ← hrev, List.reverse_reverse]
      unfold dirName
      show (⟨(dirNameRev (out ++ '\\' :: n.data).reverse).getD []⟩ : String) = ⟨out⟩
      rw [h2]
      rfl

/-! ## Characterization of `resolve_duplicates` -/

/-- The dict key of an item: its case-folded output filename. -/
def keyOf (it : ExportItem) : String := strLower it.output_filename

/-- How many items of `l` carry the key `k`. -/
def countKey (l : List ExportItem) (k : String) : Nat :=
  (l.filter (fun it => keyOf it = k)).length

/-- What `resolve_duplicates` does to an item preceded by `m` items of
the same key: the first occurrence (`m = 0`) is untouched, the
`m+1`-st occurrence is renamed with suffix `_(m+1)`. -/
def resolvedItem (item : ExportItem) (m : Nat) : ExportItem :=
  if m = 0 then item else renameItem item (m + 1)

theorem resolveDupGo_length : ∀ (items : List ExportItem) (seen : List (String × Nat)),
    (resolveDupGo items seen).length = items.length := by
  intro items
  induction items with
  | nil => intro seen; rfl
  | cons item rest ih =>
    intro seen
    simp only [resolveDupGo]
    cases lookupSeen seen (strLower item.output_filename) <;> simp [ih]

theorem lookupSeen_bumpSeen : ∀ (seen : List (String × Nat)) (k : String) (n : Nat)
    (q : String), lookupSeen (bumpSeen seen k n) q =
      if q = k then some n else lookupSeen seen q := by
  intro seen
  induction seen with
  | nil =>
    intro k n q
    simp only [bumpSeen, lookupSeen]
    by_cases h : k = q
    · subst h
      rfl
    · have h2 : ¬(q = k) := fun hh => h hh.symm
      rw [if_neg h, if_neg h2]
  | cons p rest ih =>
    intro k n q
    obtain ⟨k0, m0⟩ := p
    by_cases h0 : k0 = k
    · subst h0
      simp only [bumpSeen, if_pos rfl, lookupSeen]
      by_cases hq : k0 = q
      · rw [if_pos hq, if_pos hq.symm]
      · have h2 : ¬(q = k0) := fun hh => hq hh.symm
        rw [if_neg hq, if_neg h2, if_neg hq]
    · simp only [bumpSeen, if_neg h0, lookupSeen]
      by_cases hq : k0 = q
      · have h2 : ¬(q = k) := fun hh => h0 (hq.trans hh)
        rw [if_pos hq, if_neg h2, if_pos hq]
      · rw [if_neg hq, if_neg hq, ih]

theorem countKey_cons (item : ExportItem) (l : List ExportItem) (k : String) :
    countKey (item :: l) k =
      countKey l k + (if keyOf item = k then 1 else 0) := by
  unfold countKey
  by_cases h : keyOf item = k
  · rw [if_pos h, List.filter_cons_of_pos (by simp [h])]
    simp
  · rw [if_neg h, List.filter_cons_of_neg (by simp [h])]
    omega

theorem resolveDupGo_spec : ∀ (items : List ExportItem) (cnt : String → Nat)
    (seen : List (String × Nat))
    (_ : ∀ k, lookupSeen seen k = if cnt k = 0 then none else some (cnt k))
    (i : Nat), i < items.length →
    (resolveDupGo items seen).getD i dummyItem =
      resolvedItem (items.getD i dummyItem)
        (cnt (keyOf (items.getD i dummyItem)) +
          countKey (items.take i) (keyOf (items.getD i dummyItem))) := by
  intro items
  induction items with
  | nil => intro _ _ _ i hi; simp at hi
  | cons item rest ih =>
    intro cnt seen hseen i hi
    simp only [resolveDupGo]
    rw [show strLower item.output_filename = keyOf item from rfl]
    rw [hseen (keyOf item)]
    by_cases h0 : cnt (keyOf item) = 0
    · rw [if_pos h0]
      cases i with
      | zero =>
        show item = resolvedItem item (cnt (keyOf item) + countKey [] (keyOf item))
        unfold resolvedItem countKey
        simp [h0]
      | succ j =>
        have hj : j < rest.length := by simpa using hi
        have hinv : ∀ k, lookupSeen ((keyOf item, 1) :: seen) k =
            if (if k = keyOf item then cnt k + 1 else cnt k) = 0 then none
            else some (if k = keyOf item then cnt k + 1 else cnt k) := by
          intro k
          simp only [lookupSeen]
          by_cases hk : k = keyOf item
          · simp only [hk]
            simp [h0]
          · have h2 : ¬(keyOf item = k) := fun hh => hk hh.symm
            simp only [if_neg hk, if_neg h2, hseen k]
        show (resolveDupGo rest ((keyOf item, 1) :: seen)).getD j dummyItem =
          resolvedItem (rest.getD j dummyItem)
            (cnt (keyOf (rest.getD j dummyItem)) +
              countKey (item :: rest.take j) (keyOf (rest.getD j dummyItem)))
        rw [ih (fun k => if k = keyOf item then cnt k + 1 else cnt k)
          ((keyOf item, 1) :: seen) hinv j hj, countKey_cons]
        set x := rest.getD j dummyItem with hx
        by_cases hk : keyOf x = keyOf item
        · rw [if_pos hk, if_pos hk.symm]
          congr 1 <;> omega
        · rw [if_neg hk, if_neg (fun hh => hk hh.symm)]
          congr 1 <;> omega
    · rw [if_neg h0]
      cases i with
      | zero =>
        show renameItem item (cnt (keyOf item) + 1) =
          resolvedItem item (cnt (keyOf item) + countKey [] (keyOf item))
        unfold resolvedItem countKey
        simp [h0]
      | succ j =>
        have hj : j < rest.length := by simpa using hi
        have hinv : ∀ k,
            lookupSeen (bumpSeen seen (keyOf item) (cnt (keyOf item) + 1)) k =
            if (if k = keyOf item then cnt k + 1 else cnt k) = 0 then none
            else some (if k = keyOf item then cnt k + 1 else cnt k) := by
          intro k
          rw [lookupSeen_bumpSeen]
          by_cases hk : k = keyOf item
          · simp only [if_pos hk]
            rw [hk]
            simp
          · simp only [if_neg hk, hseen k]
        show (resolveDupGo rest
            (bumpSeen seen (keyOf item) (cnt (keyOf item) + 1))).getD j dummyItem =
          resolvedItem (rest.getD j dummyItem)
            (cnt (keyOf (rest.getD j dummyItem)) +
              countKey (item :: rest.take j) (keyOf (rest.getD j dummyItem)))
        rw [ih (fun k => if k = keyOf item then cnt k + 1 else cnt k)
          (bumpSeen seen (keyOf item) (cnt (keyOf item) + 1)) hinv j hj, countKey_cons]
        set x := rest.getD j dummyItem with hx
        by_cases hk : keyOf x = keyOf item
        · rw [if_pos hk, if_pos hk.symm]
          congr 1 <;> omega
        · rw [if_neg hk, if_neg (fun hh => hk hh.symm)]
          congr 1 <;> omega

/-- Index-wise characterization of `resolve_duplicates`: item `i` is
left alone when it is the first occurrence of its key, and renamed with
suffix `_(m+1)` when `m ≥ 1` earlier items share its key. -/
theorem resolve_duplicates_spec (items : List ExportItem) (i : Nat)
    (hi : i < items.length) :
    (resolve_duplicates items).getD i dummyItem =
      resolvedItem (items.getD i dummyItem)
        (countKey (items.take i) (keyOf (items.getD i dummyItem))) := by
  have h := resolveDupGo_spec items (fun _ => 0) [] (fun k => rfl) i hi
  simpa using h

/-! ## Facts about the renaming step -/

theorem not_special_of_digit (ch : Char) (h1 : 48 ≤ ch.toNat) (h2 : ch.toNat ≤ 57) :
    isSpecialChar ch = false := by
  unfold isSpecialChar isSepChar
  have d1 : ¬(ch = '.') := by
    rw [charEq_iff_toNat]
    have : ('.').toNat = 46 := rfl
    omega
  have d2 : ¬(ch = '\\') := by
    rw [charEq_iff_toNat]
    have : ('\\').toNat = 92 := rfl
    omega
  have d3 : ¬(ch = '/') := by
    rw [charEq_iff_toNat]
    have : ('/').toNat = 47 := rfl
    omega
  simp [d1, d2, d3]

/-- The characters inserted before the extension by the renaming. -/
def sufChars (c : Nat) : List Char := '_' :: (natRepr c).data

theorem sufChars_ne_nil (c : Nat) : sufChars c ≠ [] := by
  simp [sufChars]

theorem sufChars_not_special (c : Nat) :
    ∀ ch ∈ sufChars c, isSpecialChar ch = false := by
  intro ch hch
  rcases List.mem_cons.mp hch with h | h
  · subst h; decide
  · obtain ⟨h1, h2⟩ := natRepr_chars c ch h
    exact not_special_of_digit ch h1 h2

theorem name_renameItem (it : ExportItem) (c : Nat) :
    (renameItem it c).output_filename.data =
      (splitExtChars it.output_filename.data).1 ++ sufChars c ++
        (splitExtChars it.output_filename.data).2 := by
  show ((splitExt it.output_filename).1 ++ "_" ++ natRepr c ++
      (splitExt it.output_filename).2).data = _
  show ((splitExtChars it.output_filename.data).1 ++ "_".data ++ (natRepr c).data ++
      (splitExtChars it.output_filename.data).2 : List Char) = _
  simp [sufChars]

theorem path_renameItem (it : ExportItem) (c : Nat) :
    (renameItem it c).output_path =
      joinPath (dirName it.output_path) (renameItem it c).output_filename := rfl

theorem length_name_renameItem (it : ExportItem) (c : Nat) :
    (renameItem it c).output_filename.data.length =
      it.output_filename.data.length + 1 + (natRepr c).data.length := by
  rw [name_renameItem]
  have hlen := congrArg List.length (splitExtChars_append it.output_filename.data)
  simp only [List.length_append] at hlen
  simp only [List.length_append, sufChars, List.length_cons]
  omega

theorem ext_renameItem (it : ExportItem) (c : Nat) :
    (splitExt (renameItem it c).output_filename).2 =
      (splitExt it.output_filename).2 := by
  show ((splitExtChars (renameItem it c).output_filename.data).2.asString : String) = _
  rw [name_renameItem,
    splitExtChars_suffix it.output_filename.data (sufChars c) (sufChars_ne_nil c)
      (sufChars_not_special c)]
  rfl

theorem sep_free_renameItem (it : ExportItem) (c : Nat)
    (h : ∀ ch ∈ it.output_filename.data, isSepChar ch = false) :
    ∀ ch ∈ (renameItem it c).output_filename.data, isSepChar ch = false := by
  intro ch hch
  rw [name_renameItem] at hch
  rcases List.mem_append.mp hch with hch | hch
  · rcases List.mem_append.mp hch with hch | hch
    · apply h
      rw [← splitExtChars_append it.output_filename.data]
      exact List.mem_append.mpr (Or.inl hch)
    · exact not_special_not_sep ch (sufChars_not_special c ch hch)
  · apply h
    rw [← splitExtChars_append it.output_filename.data]
    exact List.mem_append.mpr (Or.inr hch)

theorem dirName_renameItem (it : ExportItem) (c : Nat)
    (h : ∀ ch ∈ it.output_filename.data, isSepChar ch = false) :
    dirName (renameItem it c).output_path = dirName it.output_path := by
  rw [path_renameItem]
  exact dirName_joinPath_dirName it.output_path (renameItem it c).output_filename
    (sep_free_renameItem it c h)

theorem keyOf_renameItem (it : ExportItem) (c : Nat) :
    (keyOf (renameItem it c)).data =
      (splitExtChars it.output_filename.data).1.map Char.toLower ++
        '_' :: ((natRepr c).data ++
          (splitExtChars it.output_filename.data).2.map Char.toLower) := by
  show ((renameItem it c).output_filename.data.map Char.toLower : List Char) = _
  rw [name_renameItem]
  simp only [List.map_append, sufChars, List.map_cons]
  have hlow : Char.toLower '_' = '_' := by decide
  have hd : (natRepr c).data.map Char.toLower = (natRepr c).data := by
    have := strLower_natRepr c
    unfold strLower at this
    exact congrArg String.data this
  rw [hlow, hd]
  simp

/-! ## Count helpers -/

theorem countKey_append (l1 l2 : List ExportItem) (q : String) :
    countKey (l1 ++ l2) q = countKey l1 q + countKey l2 q := by
  unfold countKey
  rw [List.filter_append, List.length_append]

theorem countKey_take_succ (items : List ExportItem) (i : Nat)
    (hi : i < items.length) (q : String) :
    countKey (items.take (i + 1)) q =
      countKey (items.take i) q +
        (if keyOf (items.getD i dummyItem) = q then 1 else 0) := by
  rw [← List.take_concat_get' items i hi, countKey_append]
  congr 1
  unfold countKey
  rw [List.getD_eq_getElem items dummyItem hi]
  by_cases h : keyOf items[i] = q
  · rw [if_pos h, List.filter_cons_of_pos (by simp [h])]
    rfl
  · rw [if_neg h, List.filter_cons_of_neg (by simp [h])]
    rfl

theorem countKey_take_le (items : List ExportItem) (i j : Nat) (hij : i ≤ j)
    (q : String) : countKey (items.take i) q ≤ countKey (items.take j) q := by
  have : items.take j = items.take i ++ (items.drop i).take (j - i) := by
    rw [← List.take_add]
    congr 1
    omega
  rw [this, countKey_append]
  omega

theorem countKey_lt_of_same_key (items : List ExportItem) (i j : Nat)
    (hi : i < items.length) (hij : i < j)
    (hkey : keyOf (items.getD i dummyItem) = keyOf (items.getD j dummyItem)) :
    countKey (items.take i) (keyOf (items.getD j dummyItem)) <
      countKey (items.take j) (keyOf (items.getD j dummyItem)) := by
  have h1 := countKey_take_succ items i hi (keyOf (items.getD j dummyItem))
  rw [if_pos hkey] at h1
  have h2 := countKey_take_le items (i + 1) j (by omega)
    (keyOf (items.getD j dummyItem))
  omega

theorem countKey_eq_zero_of_first (items : List ExportItem) (i : Nat)
    (hfirst : ∀ j, j < i → j < items.length →
      keyOf (items.getD j dummyItem) ≠ keyOf (items.getD i dummyItem)) :
    countKey (items.take i) (keyOf (items.getD i dummyItem)) = 0 := by
  unfold countKey
  rw [List.length_eq_zero, List.filter_eq_nil_iff]
  intro x hx
  rw [List.mem_iff_getElem] at hx
  obtain ⟨j, hj, heq⟩ := hx
  have hjb : j < i ∧ j < items.length := by
    have := List.length_take i items
    omega
  rw [List.getElem_take items] at heq
  simp only [decide_eq_true_eq]
  intro hcontra
  apply hfirst j hjb.1 hjb.2
  rw [List.getD_eq_getElem items dummyItem hjb.2, heq]
  exact hcontra

/-! ## Claims C1 and C10 -/

/-- An item with only the naming fields populated, for concrete tests. -/
def mkPlainItem (f p : String) : ExportItem :=
  { component := dummyItem.component, export_type := "step",
    output_filename := f, output_path := p }

theorem keyOf_data (it : ExportItem) :
    (keyOf it).data = it.output_filename.data.map Char.toLower := rfl

/-- C1 (counterexample): on `['A.step', 'A.step', 'A_2.step']` (same
output directory), `resolve_duplicates` renames the second item to
`A_2.step`, which collides with the third item's untouched original
name: two distinct items end with the same case-insensitive
`output_name` in the same directory — in fact with the identical
`output_path` — so the claimed guarantee fails for inputs whose names
already carry `_N` suffixes. -/
theorem c1_counterexample :
    keyOf ((resolve_duplicates
        [mkPlainItem "A.step" "C:\\out\\A.step",
          mkPlainItem "A.step" "C:\\out\\A.step",
          mkPlainItem "A_2.step" "C:\\out\\A_2.step"]).getD 1 dummyItem) =
      keyOf ((resolve_duplicates
        [mkPlainItem "A.step" "C:\\out\\A.step",
          mkPlainItem "A.step" "C:\\out\\A.step",
          mkPlainItem "A_2.step" "C:\\out\\A_2.step"]).getD 2 dummyItem) ∧
    ((resolve_duplicates
        [mkPlainItem "A.step" "C:\\out\\A.step",
          mkPlainItem "A.step" "C:\\out\\A.step",
          mkPlainItem "A_2.step" "C:\\out\\A_2.step"]).getD 1 dummyItem).output_path =
      ((resolve_duplicates
        [mkPlainItem "A.step" "C:\\out\\A.step",
          mkPlainItem "A.step" "C:\\out\\A.step",
          mkPlainItem "A_2.step" "C:\\out\\A_2.step"]).getD 2 dummyItem).output_path := by
  refine ⟨by decide, by decide⟩

/-- C1 (amended): after `resolve_duplicates`, any two items whose
*original* output names shared a case-insensitive key have distinct
case-insensitive output names (the first of a key group is untouched
and later members get distinct `_N` suffixes).  The unconditional
guarantee — that no two items at all share a name — does not hold: a
generated `_N` name can collide with a different original name that
already carried that suffix (see the counterexample). -/
theorem c1_same_key_distinct (items : List ExportItem) (i j : Nat)
    (hi : i < items.length) (hj : j < items.length) (hij : i < j)
    (hkey : keyOf (items.getD i dummyItem) = keyOf (items.getD j dummyItem)) :
    keyOf ((resolve_duplicates items).getD i dummyItem) ≠
      keyOf ((resolve_duplicates items).getD j dummyItem) := by
  rw [resolve_duplicates_spec items i hi, resolve_duplicates_spec items j hj]
  set a := items.getD i dummyItem with ha
  set b := items.getD j dummyItem with hb
  set m := countKey (items.take i) (keyOf a) with hm
  set n := countKey (items.take j) (keyOf b) with hn
  have hmn : m < n := by
    rw [hm, hn, hkey]
    exact countKey_lt_of_same_key items i j hi hij hkey
  have hdata : a.output_filename.data.map Char.toLower =
      b.output_filename.data.map Char.toLower := by
    have := congrArg String.data hkey
    rw [keyOf_data, keyOf_data] at this
    exact this
  have hlen : a.output_filename.data.length = b.output_filename.data.length := by
    have := congrArg List.length hdata
    simpa using this
  intro hcontra
  by_cases hm0 : m = 0
  · -- first occurrence of the key is untouched; the later one grows
    rw [hm0] at hcontra
    unfold resolvedItem at hcontra
    rw [if_pos rfl, if_neg (by omega)] at hcontra
    have hlc := congrArg (fun s => s.data.length) hcontra
    simp only [keyOf_data, List.length_map] at hlc
    rw [length_name_renameItem] at hlc
    have := natRepr_ne_empty (n + 1)
    have hrlen : (natRepr (n + 1)).data.length ≠ 0 := by
      intro hz
      exact this (List.length_eq_zero.mp hz)
    omega
  · -- both renamed: the suffix ordinals differ
    unfold resolvedItem at hcontra
    rw [if_neg hm0, if_neg (by omega)] at hcontra
    have hsplit : splitExtChars (a.output_filename.data.map Char.toLower) =
        splitExtChars (b.output_filename.data.map Char.toLower) := by
      rw [hdata]
    rw [splitExtChars_map_toLower, splitExtChars_map_toLower] at hsplit
    have hstem : (splitExtChars a.output_filename.data).1.map Char.toLower =
        (splitExtChars b.output_filename.data).1.map Char.toLower :=
      congrArg Prod.fst hsplit
    have hext : (splitExtChars a.output_filename.data).2.map Char.toLower =
        (splitExtChars b.output_filename.data).2.map Char.toLower :=
      congrArg Prod.snd hsplit
    have hd := congrArg String.data hcontra
    rw [keyOf_renameItem, keyOf_renameItem, hstem, hext] at hd
    have hd2 := List.append_cancel_left hd
    injection hd2 with hu hd3
    have hd4 : (natRepr (m + 1)).data = (natRepr (n + 1)).data :=
      List.append_cancel_right hd3
    have := natRepr_inj (m + 1) (n + 1) (String.ext hd4)
    omega

/-- C1 (witness): the amended theorem applied at a concrete input. -/
theorem c1_witness :
    keyOf ((resolve_duplicates
        [mkPlainItem "X.step" "o\\X.step", mkPlainItem "x.step" "o\\x.step"]).getD
          0 dummyItem) ≠
      keyOf ((resolve_duplicates
        [mkPlainItem "X.step" "o\\X.step", mkPlainItem "x.step" "o\\x.step"]).getD
          1 dummyItem) :=
  c1_same_key_distinct
    [mkPlainItem "X.step" "o\\X.step", mkPlainItem "x.step" "o\\x.step"]
    0 1 (by decide) (by decide) (by decide) (by decide)

/-- C10 (confirmed): `resolve_duplicates` preserves the length and
order of the item list; for every item it leaves the component, the
export type, the filename extension and the output directory unchanged
(for items whose filename is a filename, i.e. free of path
separators); and an item that is the first occurrence of its
case-insensitive filename key is returned entirely unchanged — only
second-or-later occurrences are renamed. -/
theorem c10_frame (items : List ExportItem)
    (hsep : ∀ it ∈ items, ∀ ch ∈ it.output_filename.data, isSepChar ch = false) :
    (resolve_duplicates items).length = items.length ∧
    ∀ i, i < items.length →
      ((resolve_duplicates items).getD i dummyItem).component =
          (items.getD i dummyItem).component ∧
      ((resolve_duplicates items).getD i dummyItem).export_type =
          (items.getD i dummyItem).export_type ∧
      (splitExt ((resolve_duplicates items).getD i dummyItem).output_filename).2 =
          (splitExt (items.getD i dummyItem).output_filename).2 ∧
      dirName ((resolve_duplicates items).getD i dummyItem).output_path =
          dirName (items.getD i dummyItem).output_path ∧
      ((∀ j, j < i →
          keyOf (items.getD j dummyItem) ≠ keyOf (items.getD i dummyItem)) →
        (resolve_duplicates items).getD i dummyItem = items.getD i dummyItem) := by
  refine ⟨resolveDupGo_length items [], ?_⟩
  intro i hi
  rw [resolve_duplicates_spec items i hi]
  set a := items.getD i dummyItem with ha
  have hmem : a ∈ items := by
    rw [ha, List.getD_eq_getElem items dummyItem hi]
    exact List.getElem_mem hi
  by_cases hm : countKey (items.take i) (keyOf a) = 0
  · rw [hm]
    unfold resolvedItem
    rw [if_pos rfl]
    exact ⟨rfl, rfl, rfl, rfl, fun _ => rfl⟩
  · unfold resolvedItem
    rw [if_neg hm]
    refine ⟨rfl, rfl, ext_renameItem a _, dirName_renameItem a _ (hsep a hmem), ?_⟩
    intro hfirst
    exact absurd (countKey_eq_zero_of_first items i (fun j hji _ => hfirst j hji)) hm

/-- C10 (witness): the frame theorem applied at a concrete input. -/
theorem c10_witness :
    (resolve_duplicates
        [mkPlainItem "A.step" "C:\\out\\A.step",
          mkPlainItem "a.step" "C:\\out\\a.step"]).length = 2 ∧
    ((resolve_duplicates
        [mkPlainItem "A.step" "C:\\out\\A.step",
          mkPlainItem "a.step" "C:\\out\\a.step"]).getD 1 dummyItem).export_type =
      ((([mkPlainItem "A.step" "C:\\out\\A.step",
          mkPlainItem "a.step" "C:\\out\\a.step"]).getD 1 dummyItem)).export_type := by
  have h := c10_frame
    [mkPlainItem "A.step" "C:\\out\\A.step", mkPlainItem "a.step" "C:\\out\\a.step"]
    (by decide)
  exact ⟨h.1, (h.2 1 (by decide)).2.1⟩

/-! ## Claims C4, C5, C9: the execution loop -/

/-- A throwaway result used as the default of `List.getD`. -/
def dummyResult : ExportResultM := { item := dummyItem, success := false }

/-- Whether the external operation succeeds on an item. -/
def opOk (op : ExportItem → Except String Unit) (it : ExportItem) : Bool :=
  match op it with
  | .ok _ => true
  | .error _ => false

theorem success_itemResult (op : ExportItem → Except String Unit) (it : ExportItem) :
    (itemResult op it).success = opOk op it := by
  unfold itemResult opOk
  cases op it <;> rfl

theorem exportLoop_no_cancel (op : ExportItem → Except String Unit) :
    ∀ (items : List ExportItem) (i0 : Nat),
      exportLoop op (fun _ => false) items i0 = items.map (itemResult op) := by
  intro items
  induction items with
  | nil => intro i0; rfl
  | cons item rest ih =>
    intro i0
    show (if false then [] else
        itemResult op item :: exportLoop op (fun _ => false) rest (i0 + 1)) = _
    rw [if_neg (by simp), ih (i0 + 1)]
    rfl

theorem exportLoop_cancel_take (op : ExportItem → Except String Unit)
    (cancel : Nat → Bool) :
    ∀ (items : List ExportItem) (i0 k : Nat), k ≤ items.length →
      (∀ t, t < k → cancel (i0 + t) = false) → cancel (i0 + k) = true →
      exportLoop op cancel items i0 = (items.take k).map (itemResult op) := by
  intro items
  induction items with
  | nil =>
    intro i0 k hk _ _
    have hk0 : k = 0 := by simpa using hk
    subst hk0
    rfl
  | cons item rest ih =>
    intro i0 k hk hbefore hat
    cases k with
    | zero =>
      show (if cancel i0 then [] else _) = []
      rw [if_pos (by simpa using hat)]
    | succ t =>
      show (if cancel i0 then [] else
          itemResult op item :: exportLoop op cancel rest (i0 + 1)) = _
      rw [if_neg (by simp [show cancel i0 = false by
            have := hbefore 0 (by omega)
            simpa using this])]
      rw [ih (i0 + 1) t (by simpa using hk)
        (fun u hu => by
          have := hbefore (u + 1) (by omega)
          rwa [show i0 + (u + 1) = i0 + 1 + u by omega] at this)
        (by rwa [show i0 + 1 + t = i0 + (t + 1) by omega])]
      rfl

theorem succeeded_add_failed (rs : List ExportResultM) :
    succeededCount rs + failedCount rs = rs.length := by
  unfold succeededCount failedCount
  induction rs with
  | nil => rfl
  | cons r t ih =>
    by_cases h : r.success
    · rw [List.filter_cons_of_pos (by simp [h]), List.filter_cons_of_neg (by simp [h])]
      simp only [List.length_cons]
      omega
    · rw [List.filter_cons_of_neg (by simp [h]), List.filter_cons_of_pos (by simp [h])]
      simp only [List.length_cons]
      omega

/-- C4 (confirmed): if the cancel signal is clear before items
`0..k-1` and set before item `k`, the loop stops exactly there: the
recorded results are precisely the per-item results of items `0..k-1`
(no result exists for any later item, and no later item is marked
failed), and the succeeded and failed counts still add up to the
number of recorded results. -/
theorem c4_cancel_truncates (items : List ExportItem)
    (op : ExportItem → Except String Unit) (cancel : Nat → Bool) (k : Nat)
    (hk : k ≤ items.length) (hbefore : ∀ t, t < k → cancel t = false)
    (hat : cancel k = true) :
    exportLoop op cancel items 0 = (items.take k).map (itemResult op) ∧
    (exportLoop op cancel items 0).length = k ∧
    succeededCount (exportLoop op cancel items 0) +
        failedCount (exportLoop op cancel items 0) =
      (exportLoop op cancel items 0).length := by
  have h := exportLoop_cancel_take op cancel items 0 k hk
    (fun t ht => by simpa using hbefore t ht) (by simpa using hat)
  refine ⟨h, ?_, succeeded_add_failed _⟩
  rw [h, List.length_map, List.length_take]
  omega

/-- C4 (witness): a cancel signal set from item 2 onward truncates a
four-item run to the first two results. -/
theorem c4_witness :
    exportLoop (fun _ => .ok ()) (fun i => decide (2 ≤ i))
        [mkPlainItem "a" "a", mkPlainItem "b" "b", mkPlainItem "c" "c",
          mkPlainItem "d" "d"] 0 =
      ([mkPlainItem "a" "a", mkPlainItem "b" "b"].map
        (itemResult (fun _ => .ok ()))) ∧
    (exportLoop (fun _ => .ok ()) (fun i => decide (2 ≤ i))
        [mkPlainItem "a" "a", mkPlainItem "b" "b", mkPlainItem "c" "c",
          mkPlainItem "d" "d"] 0).length = 2 := by
  have h := c4_cancel_truncates
    [mkPlainItem "a" "a", mkPlainItem "b" "b", mkPlainItem "c" "c",
      mkPlainItem "d" "d"]
    (fun _ => .ok ()) (fun i => decide (2 ≤ i)) 2 (by decide)
    (by intro t ht; interval_cases t <;> decide) (by decide)
  exact ⟨h.1, h.2.1⟩

/-- C5 (confirmed): with no cancellation, an item whose external
operation raises is recorded as failed with its error message, and
every item of the list — including all items after the failing one —
still gets exactly one recorded result; the failed count is at least 1
and the succeeded count is exactly the number of items whose operation
succeeds. -/
theorem c5_failure_isolated (items : List ExportItem)
    (op : ExportItem → Except String Unit) (j : Nat) (e : String)
    (hj : j < items.length) (herr : op (items.getD j dummyItem) = .error e) :
    (exportLoop op (fun _ => false) items 0).length = items.length ∧
    ((exportLoop op (fun _ => false) items 0).getD j dummyResult).success = false ∧
    ((exportLoop op (fun _ => false) items 0).getD j dummyResult).error_message =
      some e ∧
    1 ≤ failedCount (exportLoop op (fun _ => false) items 0) ∧
    succeededCount (exportLoop op (fun _ => false) items 0) =
      (items.filter (opOk op)).length := by
  rw [exportLoop_no_cancel op items 0]
  have hjm : j < (items.map (itemResult op)).length := by simpa using hj
  have hget : (items.map (itemResult op)).getD j dummyResult =
      itemResult op (items.getD j dummyItem) := by
    rw [List.getD_eq_getElem _ _ hjm, List.getD_eq_getElem _ _ hj,
      List.getElem_map]
  have hr : itemResult op (items.getD j dummyItem) =
      { item := items.getD j dummyItem, success := false,
        error_message := some e } := by
    unfold itemResult
    rw [herr]
  refine ⟨by simp, ?_, ?_, ?_, ?_⟩
  · rw [hget, hr]
  · rw [hget, hr]
  · unfold failedCount
    have hmem : itemResult op (items.getD j dummyItem) ∈
        (items.map (itemResult op)).filter (fun r => !r.success) := by
      rw [List.mem_filter]
      constructor
      · apply List.mem_map_of_mem
        rw [List.getD_eq_getElem _ _ hj]
        exact List.getElem_mem hj
      · rw [hr]
        rfl
    have := List.length_pos.mpr (List.ne_nil_of_mem hmem)
    omega
  · unfold succeededCount
    rw [List.filter_map, List.length_map]
    congr 1
    apply List.filter_congr
    intro it _
    simp only [Function.comp]
    rw [success_itemResult]

/-- C5 (witness): the theorem applied at a concrete two-item run whose
first item fails. -/
theorem c5_witness :
    (exportLoop (fun it => if it.output_filename = "bad" then .error "boom"
        else .ok ()) (fun _ => false)
      [mkPlainItem "bad" "p", mkPlainItem "ok" "q"] 0).length = 2 ∧
    1 ≤ failedCount (exportLoop
      (fun it => if it.output_filename = "bad" then .error "boom" else .ok ())
      (fun _ => false) [mkPlainItem "bad" "p", mkPlainItem "ok" "q"] 0) := by
  have h := c5_failure_isolated [mkPlainItem "bad" "p", mkPlainItem "ok" "q"]
    (fun it => if it.output_filename = "bad" then .error "boom" else .ok ())
    0 "boom" (by decide) (by rfl)
  exact ⟨h.1, h.2.2.2.1⟩

theorem exportLoopLog_results (op : ExportItem → Except String Unit)
    (cancel logFail : Nat → Bool) :
    ∀ (items : List ExportItem) (i : Nat) (alive : Bool),
      (exportLoopLog op cancel logFail items i alive).1 =
        exportLoop op cancel items i := by
  intro items
  induction items with
  | nil => intro i alive; rfl
  | cons item rest ih =>
    intro i alive
    simp only [exportLoopLog, exportLoop]
    by_cases hc : cancel i
    · rw [if_pos hc, if_pos hc]
    · rw [if_neg hc, if_neg hc]
      by_cases ha : alive
      · by_cases hl : logFail i
        · simp only [if_pos ha, if_pos hl, ih]
        · simp only [if_pos ha, if_neg hl, ih]
      · simp only [if_neg ha, ih]

theorem exportLoopLog_logged (op : ExportItem → Except String Unit)
    (logFail : Nat → Bool) :
    ∀ (items : List ExportItem) (i : Nat),
      (exportLoopLog op (fun _ => false) logFail items i true).2 =
        (List.range' i items.length).takeWhile (fun t => !logFail t) := by
  have hdead : ∀ (items : List ExportItem) (i : Nat),
      (exportLoopLog op (fun _ => false) logFail items i false).2 = [] := by
    intro items
    induction items with
    | nil => intro i; rfl
    | cons item rest ih =>
      intro i
      simp only [exportLoopLog]
      rw [if_neg (by simp)]
      simp only [if_neg (by simp : ¬(false = true)), ih]
  intro items
  induction items with
  | nil => intro i; rfl
  | cons item rest ih =>
    intro i
    simp only [exportLoopLog, List.range', List.takeWhile]
    rw [if_neg (by simp)]
    by_cases hl : logFail i
    · simp only [if_pos (by simp : (true = true)), if_pos hl, hdead rest (i + 1)]
      simp [hl]
    · simp only [if_pos (by simp : (true = true)), if_neg hl, ih (i + 1)]
      simp [hl]

/-- C9 (confirmed): the structured-log writes never change the
recorded results — the loop with logging produces exactly the results
of the loop without it, for every pattern of log-write failures — and
(with no cancellation) the set of successfully logged records is the
initial segment of items processed before the first failing write:
after a write raises, logging is a no-op for the remainder of the run
while every item is still executed and kept. -/
theorem c9_logging_isolated (items : List ExportItem)
    (op : ExportItem → Except String Unit) (cancel logFail : Nat → Bool) :
    (exportLoopLog op cancel logFail items 0 true).1 =
      exportLoop op cancel items 0 ∧
    (exportLoopLog op (fun _ => false) logFail items 0 true).2 =
      (List.range items.length).takeWhile (fun t => !logFail t) := by
  refine ⟨exportLoopLog_results op cancel logFail items 0 true, ?_⟩
  rw [exportLoopLog_logged op logFail items 0, List.range_eq_range']

/-! ## Traversal: branch equations and basic invariants -/

theorem walkFuel_cons_sup (G : List InvDoc) (o : WalkOptions) (fuel : Nat)
    (occ : Occurrence) (rest : List Occurrence) (depth : Nat) (visited : List String)
    (h : (occ.is_suppressed && !o.include_suppressed) = true) :
    walkFuel G o (fuel + 1) (occ :: rest) depth visited =
      walkFuel G o fuel rest depth visited := by
  conv_lhs => rw [walkFuel]
  rw [if_pos h]

theorem walkFuel_cons_none (G : List InvDoc) (o : WalkOptions) (fuel : Nat)
    (occ : Occurrence) (rest : List Occurrence) (depth : Nat) (visited : List String)
    (h1 : ¬(occ.is_suppressed && !o.include_suppressed) = true)
    (h2 : resolve_ref G occ.ref = none) :
    walkFuel G o (fuel + 1) (occ :: rest) depth visited =
      walkFuel G o fuel rest depth visited := by
  conv_lhs => rw [walkFuel]
  rw [if_neg h1, h2]

theorem walkFuel_cons_visited (G : List InvDoc) (o : WalkOptions) (fuel : Nat)
    (occ : Occurrence) (rest : List Occurrence) (depth : Nat) (visited : List String)
    (ref_doc : InvDoc)
    (h1 : ¬(occ.is_suppressed && !o.include_suppressed) = true)
    (h2 : resolve_ref G occ.ref = some ref_doc)
    (h3 : pathKey ref_doc ∈ visited) :
    walkFuel G o (fuel + 1) (occ :: rest) depth visited =
      walkFuel G o fuel rest depth visited := by
  conv_lhs => rw [walkFuel]
  rw [if_neg h1, h2]
  show (if pathKey ref_doc ∈ visited then _ else _) = _
  rw [if_pos h3]

theorem walkFuel_cons_cc (G : List InvDoc) (o : WalkOptions) (fuel : Nat)
    (occ : Occurrence) (rest : List Occurrence) (depth : Nat) (visited : List String)
    (ref_doc : InvDoc)
    (h1 : ¬(occ.is_suppressed && !o.include_suppressed) = true)
    (h2 : resolve_ref G occ.ref = some ref_doc)
    (h3 : pathKey ref_doc ∉ visited)
    (h4 : (ref_doc.is_content_center && !o.include_content_center) = true) :
    walkFuel G o (fuel + 1) (occ :: rest) depth visited =
      walkFuel G o fuel rest depth (pathKey ref_doc :: visited) := by
  conv_lhs => rw [walkFuel]
  rw [if_neg h1, h2]
  show (if pathKey ref_doc ∈ visited then _ else _) = _
  rw [if_neg h3, if_pos h4]

theorem walkFuel_cons_main (G : List InvDoc) (o : WalkOptions) (fuel : Nat)
    (occ : Occurrence) (rest : List Occurrence) (depth : Nat) (visited : List String)
    (ref_doc : InvDoc)
    (h1 : ¬(occ.is_suppressed && !o.include_suppressed) = true)
    (h2 : resolve_ref G occ.ref = some ref_doc)
    (h3 : pathKey ref_doc ∉ visited)
    (h4 : ¬(ref_doc.is_content_center && !o.include_content_center) = true) :
    walkFuel G o (fuel + 1) (occ :: rest) depth visited =
      ((walkFuel G o fuel rest depth
          (if (ref_doc.is_assembly && depthAllows o.max_depth depth) = true then
              walkFuel G o fuel ref_doc.occurrences (depth + 1)
                (pathKey ref_doc :: visited)
            else (pathKey ref_doc :: visited, [])).1).1,
        emitComp o ref_doc occ.is_suppressed depth ++
          (if (ref_doc.is_assembly && depthAllows o.max_depth depth) = true then
              walkFuel G o fuel ref_doc.occurrences (depth + 1)
                (pathKey ref_doc :: visited)
            else (pathKey ref_doc :: visited, [])).2 ++
          (walkFuel G o fuel rest depth
            (if (ref_doc.is_assembly && depthAllows o.max_depth depth) = true then
                walkFuel G o fuel ref_doc.occurrences (depth + 1)
                  (pathKey ref_doc :: visited)
              else (pathKey ref_doc :: visited, [])).1).2) := by
  conv_lhs => rw [walkFuel]
  rw [if_neg h1, h2]
  show (if pathKey ref_doc ∈ visited then _ else _) = _
  rw [if_neg h3, if_neg h4]

theorem resolve_ref_mem (G : List InvDoc) (r : Option String) (d : InvDoc)
    (h : resolve_ref G r = some d) : d ∈ G := by
  unfold resolve_ref at h
  cases r with
  | none => simp at h
  | some s => exact List.mem_of_find?_eq_some h

/-- The visited list only grows. -/
theorem walkFuel_vis_mono (G : List InvDoc) (o : WalkOptions) :
    ∀ (f : Nat) (occs : List Occurrence) (d : Nat) (v : List String),
      v ⊆ (walkFuel G o f occs d v).1 := by
  intro f occs d v
  induction f, occs, d, v using walkFuel.induct G o with
  | case1 occs d v => exact List.Subset.refl v
  | case2 f d v => exact List.Subset.refl v
  | case3 f occ rest d v h1 ih =>
    rw [walkFuel_cons_sup G o f occ rest d v h1]
    exact ih
  | case4 f occ rest d v h1 h2 ih =>
    rw [walkFuel_cons_none G o f occ rest d v h1 h2]
    exact ih
  | case5 f occ rest d v h1 rd h2 h3 ih =>
    rw [walkFuel_cons_visited G o f occ rest d v rd h1 h2 h3]
    exact ih
  | case6 f occ rest d v h1 rd h2 h3 h4 ih =>
    rw [walkFuel_cons_cc G o f occ rest d v rd h1 h2 h3 h4]
    exact List.Subset.trans (List.subset_cons_self _ v) ih
  | case7 f occ rest d v h1 rd h2 h3 h4 subv ihsub =>
    rename_i ihcont
    rw [walkFuel_cons_main G o f occ rest d v rd h1 h2 h3 h4]
    have hsubv : v ⊆
        (if (rd.is_assembly && depthAllows o.max_depth d) = true then
            walkFuel G o f rd.occurrences (d + 1) (pathKey rd :: v)
          else (pathKey rd :: v, [])).1 := by
      by_cases h5 : (rd.is_assembly && depthAllows o.max_depth d) = true
      · rw [if_pos h5]
        exact List.Subset.trans (List.subset_cons_self _ v) ihsub
      · rw [if_neg h5]
        exact List.subset_cons_self _ v
    exact List.Subset.trans hsubv ihcont

/-- Every key in the final visited list was there initially or is the
key of a graph document. -/
theorem walkFuel_vis_from (G : List InvDoc) (o : WalkOptions) :
    ∀ (f : Nat) (occs : List Occurrence) (d : Nat) (v : List String) (k : String),
      k ∈ (walkFuel G o f occs d v).1 → k ∈ v ∨ ∃ c ∈ G, pathKey c = k := by
  intro f occs d v
  induction f, occs, d, v using walkFuel.induct G o with
  | case1 occs d v => intro k hk; exact Or.inl hk
  | case2 f d v => intro k hk; exact Or.inl hk
  | case3 f occ rest d v h1 ih =>
    rw [walkFuel_cons_sup G o f occ rest d v h1]
    exact ih
  | case4 f occ rest d v h1 h2 ih =>
    rw [walkFuel_cons_none G o f occ rest d v h1 h2]
    exact ih
  | case5 f occ rest d v h1 rd h2 h3 ih =>
    rw [walkFuel_cons_visited G o f occ rest d v rd h1 h2 h3]
    exact ih
  | case6 f occ rest d v h1 rd h2 h3 h4 ih =>
    rw [walkFuel_cons_cc G o f occ rest d v rd h1 h2 h3 h4]
    intro k hk
    rcases ih k hk with hk' | hk'
    · rcases List.mem_cons.mp hk' with hk'' | hk''
      · exact Or.inr ⟨rd, resolve_ref_mem G occ.ref rd h2, hk''.symm⟩
      · exact Or.inl hk''
    · exact Or.inr hk'
  | case7 f occ rest d v h1 rd h2 h3 h4 subv ihsub =>
    rename_i ihcont
    rw [walkFuel_cons_main G o f occ rest d v rd h1 h2 h3 h4]
    intro k hk
    rcases ihcont k hk with hk' | hk'
    · by_cases h5 : (rd.is_assembly && depthAllows o.max_depth d) = true
      · have hk'5 : k ∈ (walkFuel G o f rd.occurrences (d + 1) (pathKey rd :: v)).1 := by
          have he : subv = walkFuel G o f rd.occurrences (d + 1) (pathKey rd :: v) := by
            show (if (rd.is_assembly && depthAllows o.max_depth d) = true then
                walkFuel G o f rd.occurrences (d + 1) (pathKey rd :: v)
              else (pathKey rd :: v, [])) = _
            rw [if_pos h5]
          rwa [he] at hk'
        rcases ihsub k hk'5 with hk'' | hk''
        · rcases List.mem_cons.mp hk'' with hk3 | hk3
          · exact Or.inr ⟨rd, resolve_ref_mem G occ.ref rd h2, hk3.symm⟩
          · exact Or.inl hk3
        · exact Or.inr hk''
      · have hk'5 : k ∈ pathKey rd :: v := by
          have he : subv = (pathKey rd :: v, []) := by
            show (if (rd.is_assembly && depthAllows o.max_depth d) = true then
                walkFuel G o f rd.occurrences (d + 1) (pathKey rd :: v)
              else (pathKey rd :: v, [])) = _
            rw [if_neg h5]
          rwa [he] at hk'
        rcases List.mem_cons.mp hk'5 with hk'' | hk''
        · exact Or.inr ⟨rd, resolve_ref_mem G occ.ref rd h2, hk''.symm⟩
        · exact Or.inl hk''
    · exact Or.inr hk'

/-! ## Traversal: the termination potential -/

theorem filter_length_mono (p q : String → Bool) (l : List String)
    (h : ∀ a, p a = true → q a = true) :
    (l.filter p).length ≤ (l.filter q).length := by
  induction l with
  | nil => exact Nat.le_refl 0
  | cons a t ih =>
    by_cases hp : p a = true
    · rw [List.filter_cons_of_pos hp, List.filter_cons_of_pos (h a hp)]
      simpa using ih
    · rw [List.filter_cons_of_neg (by simpa using hp)]
      by_cases hq : q a = true
      · rw [List.filter_cons_of_pos hq]
        exact Nat.le_trans ih (by simp)
      · rw [List.filter_cons_of_neg (by simpa using hq)]
        exact ih

theorem freeCount_anti (G : List InvDoc) (v v' : List String) (h : v ⊆ v') :
    freeCount G v' ≤ freeCount G v := by
  unfold freeCount
  apply filter_length_mono
  intro a ha
  simp only [Bool.not_eq_true', ← Bool.not_eq_true] at ha ⊢
  intro hc
  exact ha (List.elem_iff.mpr (h (List.elem_iff.mp hc)))

theorem freeCount_cons_succ_le (G : List InvDoc) (v : List String) (k : String)
    (hkG : k ∈ uKeys G) (hkv : k ∉ v) :
    freeCount G (k :: v) + 1 ≤ freeCount G v := by
  unfold freeCount
  have hmain : ∀ l : List String, k ∈ l →
      (l.filter (fun q => !(k :: v).contains q)).length + 1 ≤
        (l.filter (fun q => !v.contains q)).length := by
    intro l
    induction l with
    | nil => intro h; simp at h
    | cons a t ih =>
      intro hmem
      by_cases hak : a = k
      · subst hak
        rw [List.filter_cons_of_neg (by simp [List.elem_iff]),
          List.filter_cons_of_pos (by simpa [List.elem_iff] using hkv)]
        have := filter_length_mono (fun q => !(a :: v).contains q)
          (fun q => !v.contains q) t ?_
        · simpa using this
        · intro x hx
          simp only [Bool.not_eq_true', ← Bool.not_eq_true] at hx ⊢
          intro hc
          exact hx (List.elem_iff.mpr (List.mem_cons_of_mem a (List.elem_iff.mp hc)))
      · have hmem' : k ∈ t := by
          rcases List.mem_cons.mp hmem with h | h
          · exact absurd h.symm hak
          · exact h
        by_cases hav : a ∈ v
        · rw [List.filter_cons_of_neg (by simp [List.elem_iff, hav]),
            List.filter_cons_of_neg (by simp [List.elem_iff, hav])]
          exact ih hmem'
        · rw [List.filter_cons_of_pos ?_, List.filter_cons_of_pos
              (by simpa [List.elem_iff] using hav)]
          · simpa using ih hmem'
          · simp only [Bool.not_eq_true']
            rw [← Bool.not_eq_true, List.elem_iff]
            intro hc
            rcases List.mem_cons.mp hc with h | h
            · exact hak h
            · exact hav h
  exact hmain (uKeys G) hkG

theorem mem_uKeys_of_mem (G : List InvDoc) (c : InvDoc) (h : c ∈ G) :
    pathKey c ∈ uKeys G := by
  unfold uKeys
  rw [List.mem_dedup]
  exact List.mem_map_of_mem pathKey h

theorem occs_le_maxOccs (G : List InvDoc) (c : InvDoc) (h : c ∈ G) :
    c.occurrences.length ≤ maxOccs G := by
  unfold maxOccs
  induction G with
  | nil => simp at h
  | cons a t ih =>
    rcases List.mem_cons.mp h with h | h
    · subst h
      simp only [List.map_cons, List.foldr_cons]
      exact Nat.le_max_left _ _
    · simp only [List.map_cons, List.foldr_cons]
      exact Nat.le_trans (ih h) (Nat.le_max_right _ _)

theorem freeCount_le_uKeys (G : List InvDoc) (v : List String) :
    freeCount G v ≤ (uKeys G).length := by
  unfold freeCount
  exact List.length_filter_le _ _

/-- The traversal result does not depend on the fuel once the fuel
covers the termination potential `phi`: this is the termination
argument for the recursion of `_walk_recursive` (the visited set grows
inside a finite key space, so the recursion bottoms out). -/
theorem walkFuel_congr (G : List InvDoc) (o : WalkOptions) :
    ∀ (f g : Nat) (occs : List Occurrence) (d : Nat) (v : List String),
      phi G v occs ≤ f → phi G v occs ≤ g →
      walkFuel G o f occs d v = walkFuel G o g occs d v := by
  intro f
  induction f using Nat.strong_induction_on with
  | _ f IH =>
    intro g occs d v hf hg
    have hphi1 : 1 ≤ phi G v occs := by unfold phi; omega
    cases f with
    | zero => omega
    | succ fp =>
      cases g with
      | zero => omega
      | succ gp =>
        cases occs with
        | nil => rfl
        | cons occ rest =>
          have hphi_tail : phi G v rest + 1 = phi G v (occ :: rest) := by
            unfold phi
            simp only [List.length_cons]
            omega
          by_cases h1 : (occ.is_suppressed && !o.include_suppressed) = true
          · rw [walkFuel_cons_sup G o fp occ rest d v h1,
              walkFuel_cons_sup G o gp occ rest d v h1]
            exact IH fp (by omega) gp rest d v (by omega) (by omega)
          · cases hres : resolve_ref G occ.ref with
            | none =>
              rw [walkFuel_cons_none G o fp occ rest d v h1 hres,
                walkFuel_cons_none G o gp occ rest d v h1 hres]
              exact IH fp (by omega) gp rest d v (by omega) (by omega)
            | some rd =>
              by_cases h3 : pathKey rd ∈ v
              · rw [walkFuel_cons_visited G o fp occ rest d v rd h1 hres h3,
                  walkFuel_cons_visited G o gp occ rest d v rd h1 hres h3]
                exact IH fp (by omega) gp rest d v (by omega) (by omega)
              · have hkG : pathKey rd ∈ uKeys G :=
                  mem_uKeys_of_mem G rd (resolve_ref_mem G occ.ref rd hres)
                have hfc := freeCount_cons_succ_le G v (pathKey rd) hkG h3
                have hmul := Nat.mul_le_mul_right (maxOccs G + 1) hfc
                rw [Nat.succ_mul] at hmul
                by_cases h4 : (rd.is_content_center && !o.include_content_center) = true
                · rw [walkFuel_cons_cc G o fp occ rest d v rd h1 hres h3 h4,
                    walkFuel_cons_cc G o gp occ rest d v rd h1 hres h3 h4]
                  have hph : phi G (pathKey rd :: v) rest + 1 ≤ phi G v (occ :: rest) := by
                    unfold phi
                    simp only [List.length_cons]
                    omega
                  exact IH fp (by omega) gp rest d _ (by omega) (by omega)
                · have hM := occs_le_maxOccs G rd (resolve_ref_mem G occ.ref rd hres)
                  have hphisub :
                      phi G (pathKey rd :: v) rd.occurrences + 1 ≤ phi G v (occ :: rest) := by
                    unfold phi
                    simp only [List.length_cons]
                    omega
                  rw [walkFuel_cons_main G o fp occ rest d v rd h1 hres h3 h4,
                    walkFuel_cons_main G o gp occ rest d v rd h1 hres h3 h4]
                  by_cases h5 : (rd.is_assembly && depthAllows o.max_depth d) = true
                  · simp only [if_pos h5]
                    have hsubeq : walkFuel G o fp rd.occurrences (d + 1) (pathKey rd :: v) =
                        walkFuel G o gp rd.occurrences (d + 1) (pathKey rd :: v) :=
                      IH fp (by omega) gp rd.occurrences (d + 1) (pathKey rd :: v)
                        (by omega) (by omega)
                    have hW : (pathKey rd :: v) ⊆
                        (walkFuel G o gp rd.occurrences (d + 1) (pathKey rd :: v)).1 :=
                      walkFuel_vis_mono G o gp rd.occurrences (d + 1) (pathKey rd :: v)
                    have hfcW : freeCount G
                          ((walkFuel G o gp rd.occurrences (d + 1) (pathKey rd :: v)).1) ≤
                        freeCount G (pathKey rd :: v) :=
                      freeCount_anti G _ _ hW
                    have hfcW1 : freeCount G
                          ((walkFuel G o gp rd.occurrences (d + 1) (pathKey rd :: v)).1) + 1 ≤
                        freeCount G v := by omega
                    have hmul2 := Nat.mul_le_mul_right (maxOccs G + 1) hfcW1
                    rw [Nat.succ_mul] at hmul2
                    have hphicont : phi G
                          ((walkFuel G o gp rd.occurrences (d + 1) (pathKey rd :: v)).1)
                          rest + 1 ≤ phi G v (occ :: rest) := by
                      unfold phi
                      simp only [List.length_cons]
                      omega
                    have hcont := IH fp (by omega) gp rest d
                      ((walkFuel G o gp rd.occurrences (d + 1) (pathKey rd :: v)).1)
                      (by omega) (by omega)
                    rw [hsubeq, hcont]
                  · simp only [if_neg h5]
                    have hph : phi G (pathKey rd :: v) rest + 1 ≤ phi G v (occ :: rest) := by
                      unfold phi
                      simp only [List.length_cons]
                      omega
                    have hcont := IH fp (by omega) gp rest d (pathKey rd :: v)
                      (by omega) (by omega)
                    rw [hcont]

/-! ## Traversal: emission invariants -/

theorem mem_emitComp (o : WalkOptions) (rd : InvDoc) (sup : Bool) (dd : Nat)
    (comp : DiscoveredComponent) (h : comp ∈ emitComp o rd sup dd) :
    comp = ⟨rd, false, sup, dd⟩ := by
  unfold emitComp at h
  by_cases hf : ((!rd.is_assembly && o.include_parts) ||
      (rd.is_assembly && o.include_assemblies)) = true
  · rw [if_pos hf] at h
    simpa using h
  · rw [if_neg hf] at h
    exact absurd h (List.not_mem_nil comp)

theorem emitComp_map_nodup (o : WalkOptions) (rd : InvDoc) (sup : Bool) (dd : Nat)
    (g : DiscoveredComponent → String) :
    ((emitComp o rd sup dd).map g).Nodup := by
  unfold emitComp
  by_cases hf : ((!rd.is_assembly && o.include_parts) ||
      (rd.is_assembly && o.include_assemblies)) = true
  · rw [if_pos hf]
    simp
  · rw [if_neg hf]
    simp

/-- Bundle of emission invariants for `walkFuel`: emitted components
are never the root, their documents come from the graph and (under the
default content-center exclusion) are never content-center classified,
their dedup keys are fresh, pairwise distinct and recorded in the
final visited list, and their depths respect a `max_depth` bound. -/
theorem walkFuel_emit (G : List InvDoc) (o : WalkOptions) :
    ∀ (f : Nat) (occs : List Occurrence) (d : Nat) (v : List String),
      (∀ comp ∈ (walkFuel G o f occs d v).2,
        comp.is_top_level = false ∧
        comp.document ∈ G ∧
        (o.include_content_center = false →
          comp.document.is_content_center = false) ∧
        pathKey comp.document ∉ v ∧
        pathKey comp.document ∈ (walkFuel G o f occs d v).1) ∧
      ((walkFuel G o f occs d v).2.map (fun c => pathKey c.document)).Nodup ∧
      (∀ K, o.max_depth = some K → d ≤ K →
        ∀ comp ∈ (walkFuel G o f occs d v).2, comp.depth ≤ K) := by
  intro f occs d v
  induction f, occs, d, v using walkFuel.induct G o with
  | case1 occs d v =>
    exact ⟨fun comp h => absurd h (List.not_mem_nil comp), List.nodup_nil,
      fun K _ _ comp h => absurd h (List.not_mem_nil comp)⟩
  | case2 f d v =>
    exact ⟨fun comp h => absurd h (List.not_mem_nil comp), List.nodup_nil,
      fun K _ _ comp h => absurd h (List.not_mem_nil comp)⟩
  | case3 f occ rest d v h1 ih =>
    rw [walkFuel_cons_sup G o f occ rest d v h1]
    exact ih
  | case4 f occ rest d v h1 h2 ih =>
    rw [walkFuel_cons_none G o f occ rest d v h1 h2]
    exact ih
  | case5 f occ rest d v h1 rd h2 h3 ih =>
    rw [walkFuel_cons_visited G o f occ rest d v rd h1 h2 h3]
    exact ih
  | case6 f occ rest d v h1 rd h2 h3 h4 ih =>
    rw [walkFuel_cons_cc G o f occ rest d v rd h1 h2 h3 h4]
    refine ⟨?_, ih.2.1, ih.2.2⟩
    intro comp hcomp
    obtain ⟨ha, hb, hcx, hd', he⟩ := ih.1 comp hcomp
    exact ⟨ha, hb, hcx, fun hv => hd' (List.mem_cons_of_mem _ hv), he⟩
  | case7 f occ rest d v h1 rd h2 h3 h4 subv ihsub =>
    rename_i ihcont
    rw [walkFuel_cons_main G o f occ rest d v rd h1 h2 h3 h4]
    rw [show (if (rd.is_assembly && depthAllows o.max_depth d) = true then
        walkFuel G o f rd.occurrences (d + 1) (pathKey rd :: v)
      else (pathKey rd :: v, ([] : List DiscoveredComponent))) = subv from rfl]
    have hGrd := resolve_ref_mem G occ.ref rd h2
    have hsubv_or : ((rd.is_assembly && depthAllows o.max_depth d) = true ∧
          subv = walkFuel G o f rd.occurrences (d + 1) (pathKey rd :: v)) ∨
        subv = (pathKey rd :: v, ([] : List DiscoveredComponent)) := by
      by_cases h5 : (rd.is_assembly && depthAllows o.max_depth d) = true
      · refine Or.inl ⟨h5, ?_⟩
        show (if (rd.is_assembly && depthAllows o.max_depth d) = true then
            walkFuel G o f rd.occurrences (d + 1) (pathKey rd :: v)
          else (pathKey rd :: v, [])) = _
        rw [if_pos h5]
      · refine Or.inr ?_
        show (if (rd.is_assembly && depthAllows o.max_depth d) = true then
            walkFuel G o f rd.occurrences (d + 1) (pathKey rd :: v)
          else (pathKey rd :: v, [])) = _
        rw [if_neg h5]
    have hsv_sub : (pathKey rd :: v) ⊆ subv.1 := by
      rcases hsubv_or with ⟨_, he⟩ | he
      · rw [he]
        exact walkFuel_vis_mono G o f rd.occurrences (d + 1) _
      · rw [he]
        exact List.Subset.refl _
    have hsv_emit : ∀ comp ∈ subv.2,
        comp.is_top_level = false ∧ comp.document ∈ G ∧
        (o.include_content_center = false →
          comp.document.is_content_center = false) ∧
        pathKey comp.document ∉ (pathKey rd :: v) ∧
        pathKey comp.document ∈ subv.1 := by
      rcases hsubv_or with ⟨_, he⟩ | he
      · rw [he]
        exact ihsub.1
      · rw [he]
        intro comp hcomp
        exact absurd hcomp (List.not_mem_nil comp)
    have hsv_nodup : (subv.2.map (fun c => pathKey c.document)).Nodup := by
      rcases hsubv_or with ⟨_, he⟩ | he
      · rw [he]
        exact ihsub.2.1
      · rw [he]
        exact List.nodup_nil
    have hsv_depth : ∀ K, o.max_depth = some K → d ≤ K →
        ∀ comp ∈ subv.2, comp.depth ≤ K := by
      intro K hK hdK comp hcomp
      rcases hsubv_or with ⟨h5, he⟩ | he
      · have hdal := (Bool.and_eq_true .. ▸ h5).2
        rw [hK] at hdal
        have hdlt : d < K := of_decide_eq_true hdal
        rw [he] at hcomp
        exact ihsub.2.2 K hK (by omega) comp hcomp
      · rw [he] at hcomp
        exact absurd hcomp (List.not_mem_nil comp)
    have hv_cont : subv.1 ⊆ (walkFuel G o f rest d subv.1).1 :=
      walkFuel_vis_mono G o f rest d subv.1
    refine ⟨?_, ?_, ?_⟩
    · intro comp hcomp
      rcases List.mem_append.mp hcomp with hc | hc
      · rcases List.mem_append.mp hc with hc | hc
        · have := mem_emitComp o rd occ.is_suppressed d comp hc
          subst this
          refine ⟨rfl, hGrd, ?_, h3, ?_⟩
          · intro hccF
            by_cases hcc : rd.is_content_center = true
            · exfalso
              apply h4
              rw [hcc, hccF]
              rfl
            · simpa using hcc
          · exact hv_cont (hsv_sub (List.mem_cons_self _ _))
        · obtain ⟨ha, hb, hcx, hd', he⟩ := hsv_emit comp hc
          exact ⟨ha, hb, hcx, fun hv => hd' (List.mem_cons_of_mem _ hv), hv_cont he⟩
      · obtain ⟨ha, hb, hcx, hd', he⟩ := ihcont.1 comp hc
        exact ⟨ha, hb, hcx,
          fun hv => hd' (hsv_sub (List.mem_cons_of_mem _ hv)), he⟩
    · rw [List.map_append, List.map_append]
      apply List.Nodup.append
      · apply List.Nodup.append
        · exact emitComp_map_nodup o rd occ.is_suppressed d _
        · exact hsv_nodup
        · intro k hk hk'
          rw [List.mem_map] at hk hk'
          obtain ⟨ce, hce, hkey⟩ := hk
          obtain ⟨cs, hcs, hkey'⟩ := hk'
          have hcee := mem_emitComp o rd occ.is_suppressed d ce hce
          obtain ⟨_, _, _, hfresh, _⟩ := hsv_emit cs hcs
          apply hfresh
          rw [hkey', ← hkey, hcee]
          exact List.mem_cons_self _ _
      · exact ihcont.2.1
      · intro k hk hk'
        rw [List.mem_append] at hk
        rw [List.mem_map] at hk'
        obtain ⟨cc, hcc, hkeyc⟩ := hk'
        obtain ⟨_, _, _, hfreshc, _⟩ := ihcont.1 cc hcc
        apply hfreshc
        rw [← hkeyc] at hk
        rcases hk with hk | hk
        · rw [List.mem_map] at hk
          obtain ⟨ce, hce, hkey⟩ := hk
          have hcee := mem_emitComp o rd occ.is_suppressed d ce hce
          rw [← hkey, hcee]
          exact hsv_sub (List.mem_cons_self _ _)
        · rw [List.mem_map] at hk
          obtain ⟨cs, hcs, hkey⟩ := hk
          obtain ⟨_, _, _, _, hin⟩ := hsv_emit cs hcs
          rw [← hkey]
          exact hin
    · intro K hK hdK comp hcomp
      rcases List.mem_append.mp hcomp with hc | hc
      · rcases List.mem_append.mp hc with hc | hc
        · have := mem_emitComp o rd occ.is_suppressed d comp hc
          subst this
          exact hdK
        · exact hsv_depth K hK hdK comp hc
      · exact ihcont.2.2 K hK hdK comp hc

/-! ## Claims C2, C3, C8 -/

theorem walkAssemblyFuel_none (G : List InvDoc) (root : InvDoc) (o : WalkOptions)
    (fuel : Nat) (h : o.max_depth = none) :
    walkAssemblyFuel G root o fuel = rootComponent root ::
      (walkFuel G o fuel root.occurrences 1 [pathKey root]).2 := by
  unfold walkAssemblyFuel
  rw [h]

theorem walkAssemblyFuel_some (G : List InvDoc) (root : InvDoc) (o : WalkOptions)
    (fuel k : Nat) (h : o.max_depth = some k) :
    walkAssemblyFuel G root o fuel =
      if 1 > k then [rootComponent root]
      else rootComponent root ::
        (walkFuel G o fuel root.occurrences 1 [pathKey root]).2 := by
  unfold walkAssemblyFuel
  rw [h]

theorem walk_assembly_cases (G : List InvDoc) (root : InvDoc) (o : WalkOptions) :
    walk_assembly G root o = [rootComponent root] ∨
    walk_assembly G root o = rootComponent root ::
      (walkFuel G o (startFuel G root) root.occurrences 1 [pathKey root]).2 := by
  unfold walk_assembly
  cases hmd : o.max_depth with
  | none =>
    rw [walkAssemblyFuel_none G root o _ hmd]
    exact Or.inr rfl
  | some k =>
    rw [walkAssemblyFuel_some G root o _ k hmd]
    by_cases hk : 1 > k
    · left
      rw [if_pos hk]
    · right
      rw [if_neg hk]

/-- A content-center part, reachable only through a content-center
sub-assembly; used to exhibit the pruning behaviour. -/
def ccPart : InvDoc :=
  { full_path := "c:\\part.ipt", is_assembly := false,
    is_content_center := false, occurrences := [] }

/-- A content-center classified sub-assembly holding `ccPart`. -/
def ccMid : InvDoc :=
  { full_path := "c:\\cc.iam", is_assembly := true,
    is_content_center := true,
    occurrences := [{ is_suppressed := false, ref := some "c:\\part.ipt" }] }

/-- A root assembly whose only child is the content-center assembly. -/
def ccRoot : InvDoc :=
  { full_path := "c:\\root.iam", is_assembly := true,
    is_content_center := false,
    occurrences := [{ is_suppressed := false, ref := some "c:\\cc.iam" }] }

/-- The three-document graph root → content-center assembly → part. -/
def ccG : List InvDoc := [ccRoot, ccMid, ccPart]

/-- C2 (counterexample): with `include_content_center` disabled (the
default), the traversal of root → content-center assembly → ordinary
part returns only the root: the non-content-center part `ccPart`,
reachable only through the excluded content-center container, is *not*
in the result, because the code skips the container entirely instead
of descending into it. -/
theorem c2_counterexample :
    walk_assembly ccG ccRoot {} = [rootComponent ccRoot] ∧
    ccPart.is_content_center = false ∧
    ccMid.is_content_center = true ∧
    resolve_ref ccG (some "c:\\part.ipt") = some ccPart ∧
    resolve_ref ccG (some "c:\\cc.iam") = some ccMid := by
  refine ⟨by decide, rfl, rfl, by decide, by decide⟩

/-- C2 (amended): when a fresh occurrence resolves to a content-center
classified document and `include_content_center` is disabled, the
walk marks its path visited and then skips it *entirely*: it is
neither emitted nor descended into, and the loop proceeds with the
remaining occurrences — so descendants reachable only through it never
appear.  Consequently no emitted non-root component is content-center
classified.  (The still-descend behaviour the original claim describes
applies to the `include_assemblies` filter, not to content-center
exclusion.) -/
theorem c2_cc_pruned (G : List InvDoc) (o : WalkOptions) (fuel : Nat)
    (occ : Occurrence) (rest : List Occurrence) (depth : Nat)
    (visited : List String) (ref_doc : InvDoc)
    (hsup : ¬(occ.is_suppressed && !o.include_suppressed) = true)
    (hres : resolve_ref G occ.ref = some ref_doc)
    (hfresh : pathKey ref_doc ∉ visited)
    (hcc : ref_doc.is_content_center = true)
    (hinc : o.include_content_center = false) :
    walkFuel G o (fuel + 1) (occ :: rest) depth visited =
      walkFuel G o fuel rest depth (pathKey ref_doc :: visited) ∧
    (∀ (root : InvDoc), ∀ comp ∈ walk_assembly G root o,
      comp.is_top_level = true ∨ comp.document.is_content_center = false) := by
  constructor
  · apply walkFuel_cons_cc G o fuel occ rest depth visited ref_doc hsup hres hfresh
    rw [hcc, hinc]
    rfl
  · intro root comp hcomp
    rcases walk_assembly_cases G root o with h | h
    · rw [h] at hcomp
      rcases List.mem_cons.mp hcomp with h' | h'
      · subst h'
        exact Or.inl rfl
      · exact absurd h' (List.not_mem_nil comp)
    · rw [h] at hcomp
      rcases List.mem_cons.mp hcomp with h' | h'
      · subst h'
        exact Or.inl rfl
      · exact Or.inr
          (((walkFuel_emit G o _ _ _ _).1 comp h').2.2.1 hinc)

/-- C2 (witness): the amended theorem applied at the concrete graph. -/
theorem c2_witness :
    walkFuel ccG {} 6 [{ is_suppressed := false, ref := some "c:\\cc.iam" }] 1
        ["c:\\root.iam"] =
      walkFuel ccG {} 5 [] 1 (pathKey ccMid :: ["c:\\root.iam"]) :=
  (c2_cc_pruned ccG {} 5 { is_suppressed := false, ref := some "c:\\cc.iam" }
    [] 1 ["c:\\root.iam"] ccMid (by decide) (by decide) (by decide) rfl rfl).1

/-- C3 (confirmed): the traversal terminates on every graph, cyclic or
not — formally, the fuel-indexed recursion is stable at `startFuel`:
any larger fuel gives the same result, so the Python recursion bottoms
out — and each normalized (case-folded) path appears at most once in
the result list of one call.  The visited set is seeded with the
root's path and a child's path is added before recursing into it
(`walkFuel_cons_main` / `walk_assembly`). -/
theorem c3_terminates_and_dedups (G : List InvDoc) (root : InvDoc) (o : WalkOptions) :
    (∀ f, startFuel G root ≤ f →
      walkAssemblyFuel G root o f = walk_assembly G root o) ∧
    ((walk_assembly G root o).map (fun c => pathKey c.document)).Nodup := by
  constructor
  · intro f hf
    unfold walk_assembly
    have hphi : phi G [pathKey root] root.occurrences ≤ startFuel G root := by
      unfold phi startFuel
      have hm := Nat.mul_le_mul_right (maxOccs G + 1)
        (freeCount_le_uKeys G [pathKey root])
      omega
    have hcongr := walkFuel_congr G o f (startFuel G root) root.occurrences 1
      [pathKey root] (by omega) hphi
    cases hmd : o.max_depth with
    | none =>
      rw [walkAssemblyFuel_none G root o f hmd, walkAssemblyFuel_none G root o _ hmd,
        hcongr]
    | some k =>
      rw [walkAssemblyFuel_some G root o f k hmd,
        walkAssemblyFuel_some G root o _ k hmd]
      by_cases hk : 1 > k
      · rw [if_pos hk, if_pos hk]
      · rw [if_neg hk, if_neg hk, hcongr]
  · rcases walk_assembly_cases G root o with h | h <;> rw [h]
    · simp
    · rw [List.map_cons]
      rw [List.nodup_cons]
      refine ⟨?_, (walkFuel_emit G o _ _ _ _).2.1⟩
      intro hmem
      rw [List.mem_map] at hmem
      obtain ⟨comp, hcomp, hkey⟩ := hmem
      have hfresh := ((walkFuel_emit G o _ _ _ _).1 comp hcomp).2.2.2.1
      apply hfresh
      rw [hkey]
      exact List.mem_cons_self _ _

/-- An ordinary part document used by the concrete witnesses. -/
def plainPart : InvDoc :=
  { full_path := "c:\\plain.ipt", is_assembly := false,
    is_content_center := false, occurrences := [] }

/-- An ordinary root assembly holding `plainPart`. -/
def plainRoot : InvDoc :=
  { full_path := "c:\\plainroot.iam", is_assembly := true,
    is_content_center := false,
    occurrences := [{ is_suppressed := false, ref := some "c:\\plain.ipt" }] }

/-- The two-document graph used by the concrete witnesses. -/
def plainG : List InvDoc := [plainRoot, plainPart]

/-- C3 (witness): the theorem applied at the concrete graph with the
exact starting fuel. -/
theorem c3_witness :
    walkAssemblyFuel plainG plainRoot {} (startFuel plainG plainRoot) =
      walk_assembly plainG plainRoot {} ∧
    ((walk_assembly plainG plainRoot {}).map
      (fun c => pathKey c.document)).Nodup :=
  ⟨(c3_terminates_and_dedups plainG plainRoot {}).1 (startFuel plainG plainRoot)
    (Nat.le_refl _),
    (c3_terminates_and_dedups plainG plainRoot {}).2⟩

/-- C8 (confirmed): for every graph and every combination of filter
options, the root is the first element of the result, carrying
`is_top_level = true` and depth 0, and every other emitted component
has `is_top_level = false`. -/
theorem c8_root_first (G : List InvDoc) (root : InvDoc) (o : WalkOptions) :
    (walk_assembly G root o).head? = some (rootComponent root) ∧
    (rootComponent root).is_top_level = true ∧
    (rootComponent root).depth = 0 ∧
    ∀ comp ∈ (walk_assembly G root o).tail, comp.is_top_level = false := by
  rcases walk_assembly_cases G root o with h | h <;> rw [h]
  · exact ⟨rfl, rfl, rfl,
      fun comp hc => absurd hc (List.not_mem_nil comp)⟩
  · exact ⟨rfl, rfl, rfl,
      fun comp hc => ((walkFuel_emit G o _ _ _ _).1 comp hc).1⟩

/-- C8 (witness): the theorem applied at a concrete graph whose result
has a non-root entry. -/
theorem c8_witness :
    (walk_assembly plainG plainRoot {}).head? = some (rootComponent plainRoot) ∧
    (⟨plainPart, false, false, 1⟩ : DiscoveredComponent).is_top_level = false :=
  ⟨(c8_root_first plainG plainRoot {}).1,
    (c8_root_first plainG plainRoot {}).2.2.2
      ⟨plainPart, false, false, 1⟩ (by decide)⟩

/-! ## Claim C6: depth limiting and completeness

Two comparison definitions follow the SPEC's words (not the source), to
be compared with `walk_assembly`: `oneLevel` is the spec's "the root
plus its direct children" for `max_depth = 1` — a single,
non-recursive pass over the root's occurrence list — and `Reachable`
is the spec's "all reachable nodes" for `max_depth = None`: the nodes
connected to the root through resolvable, non-suppressed (unless
included) references, descending only through assemblies, stopping at
excluded content-center nodes. -/

/-- Spec-side definition: one non-recursive pass over an occurrence
list at depth 1, threading the visited set but never descending. -/
def oneLevel (G : List InvDoc) (o : WalkOptions) :
    List Occurrence → List String → List DiscoveredComponent
  | [], _ => []
  | occ :: rest, v =>
    if occ.is_suppressed && !o.include_suppressed then
      oneLevel G o rest v
    else
      match resolve_ref G occ.ref with
      | none => oneLevel G o rest v
      | some ref_doc =>
        if pathKey ref_doc ∈ v then
          oneLevel G o rest v
        else if ref_doc.is_content_center && !o.include_content_center then
          oneLevel G o rest (pathKey ref_doc :: v)
        else
          emitComp o ref_doc occ.is_suppressed 1 ++
            oneLevel G o rest (pathKey ref_doc :: v)

theorem oneLevel_cons_sup (G : List InvDoc) (o : WalkOptions)
    (occ : Occurrence) (rest : List Occurrence) (v : List String)
    (h : (occ.is_suppressed && !o.include_suppressed) = true) :
    oneLevel G o (occ :: rest) v = oneLevel G o rest v := by
  conv_lhs => rw [oneLevel]
  rw [if_pos h]

theorem oneLevel_cons_none (G : List InvDoc) (o : WalkOptions)
    (occ : Occurrence) (rest : List Occurrence) (v : List String)
    (h1 : ¬(occ.is_suppressed && !o.include_suppressed) = true)
    (h2 : resolve_ref G occ.ref = none) :
    oneLevel G o (occ :: rest) v = oneLevel G o rest v := by
  conv_lhs => rw [oneLevel]
  rw [if_neg h1, h2]

theorem oneLevel_cons_visited (G : List InvDoc) (o : WalkOptions)
    (occ : Occurrence) (rest : List Occurrence) (v : List String) (rd : InvDoc)
    (h1 : ¬(occ.is_suppressed && !o.include_suppressed) = true)
    (h2 : resolve_ref G occ.ref = some rd)
    (h3 : pathKey rd ∈ v) :
    oneLevel G o (occ :: rest) v = oneLevel G o rest v := by
  conv_lhs => rw [oneLevel]
  rw [if_neg h1, h2]
  show (if pathKey rd ∈ v then _ else _) = _
  rw [if_pos h3]

theorem oneLevel_cons_cc (G : List InvDoc) (o : WalkOptions)
    (occ : Occurrence) (rest : List Occurrence) (v : List String) (rd : InvDoc)
    (h1 : ¬(occ.is_suppressed && !o.include_suppressed) = true)
    (h2 : resolve_ref G occ.ref = some rd)
    (h3 : pathKey rd ∉ v)
    (h4 : (rd.is_content_center && !o.include_content_center) = true) :
    oneLevel G o (occ :: rest) v = oneLevel G o rest (pathKey rd :: v) := by
  conv_lhs => rw [oneLevel]
  rw [if_neg h1, h2]
  show (if pathKey rd ∈ v then _ else _) = _
  rw [if_neg h3, if_pos h4]

theorem oneLevel_cons_main (G : List InvDoc) (o : WalkOptions)
    (occ : Occurrence) (rest : List Occurrence) (v : List String) (rd : InvDoc)
    (h1 : ¬(occ.is_suppressed && !o.include_suppressed) = true)
    (h2 : resolve_ref G occ.ref = some rd)
    (h3 : pathKey rd ∉ v)
    (h4 : ¬(rd.is_content_center && !o.include_content_center) = true) :
    oneLevel G o (occ :: rest) v =
      emitComp o rd occ.is_suppressed 1 ++ oneLevel G o rest (pathKey rd :: v) := by
  conv_lhs => rw [oneLevel]
  rw [if_neg h1, h2]
  show (if pathKey rd ∈ v then _ else _) = _
  rw [if_neg h3, if_neg h4]

/-- With `max_depth = 1` the depth-1 loop of the traversal never
descends, so it coincides with the single spec-side pass `oneLevel`. -/
theorem walkFuel_depth1 (G : List InvDoc) (o : WalkOptions)
    (h1 : o.max_depth = some 1) :
    ∀ (occs : List Occurrence) (f : Nat) (v : List String), occs.length < f →
      (walkFuel G o f occs 1 v).2 = oneLevel G o occs v := by
  intro occs
  induction occs with
  | nil =>
    intro f v hf
    cases f with
    | zero => simp at hf
    | succ fp => rfl
  | cons occ rest ih =>
    intro f v hf
    cases f with
    | zero => simp at hf
    | succ fp =>
      have hf' : rest.length < fp := by
        simp only [List.length_cons] at hf
        omega
      by_cases h2 : (occ.is_suppressed && !o.include_suppressed) = true
      · rw [walkFuel_cons_sup G o fp occ rest 1 v h2,
          oneLevel_cons_sup G o occ rest v h2]
        exact ih fp v hf'
      · cases hres : resolve_ref G occ.ref with
        | none =>
          rw [walkFuel_cons_none G o fp occ rest 1 v h2 hres,
            oneLevel_cons_none G o occ rest v h2 hres]
          exact ih fp v hf'
        | some rd =>
          by_cases h3 : pathKey rd ∈ v
          · rw [walkFuel_cons_visited G o fp occ rest 1 v rd h2 hres h3,
              oneLevel_cons_visited G o occ rest v rd h2 hres h3]
            exact ih fp v hf'
          · by_cases h4 : (rd.is_content_center && !o.include_content_center) = true
            · rw [walkFuel_cons_cc G o fp occ rest 1 v rd h2 hres h3 h4,
                oneLevel_cons_cc G o occ rest v rd h2 hres h3 h4]
              exact ih fp _ hf'
            · have hda : depthAllows o.max_depth 1 = false := by
                rw [h1]
                rfl
              have h5 : ¬(rd.is_assembly && depthAllows o.max_depth 1) = true := by
                rw [hda, Bool.and_false]
                exact Bool.false_ne_true
              rw [walkFuel_cons_main G o fp occ rest 1 v rd h2 hres h3 h4,
                if_neg h5, oneLevel_cons_main G o occ rest v rd h2 hres h3 h4]
              show emitComp o rd occ.is_suppressed 1 ++ [] ++
                  (walkFuel G o fp rest 1 (pathKey rd :: v)).2 = _
              rw [List.append_nil, ih fp _ hf']

/-- Spec-side definition: the documents the spec's "all reachable
nodes" denotes.  A node is reachable when it is the root or is
referenced by a resolvable, non-suppressed (unless
`include_suppressed`) occurrence of a reachable node that the walk
descends into (the root, or an assembly), and is not excluded as
content-center. -/
inductive Reachable (G : List InvDoc) (o : WalkOptions) (root : InvDoc) :
    InvDoc → Prop
  | base : Reachable G o root root
  | step (p : InvDoc) (occ : Occurrence) (c : InvDoc) :
      Reachable G o root p →
      (p = root ∨ p.is_assembly = true) →
      occ ∈ p.occurrences →
      (occ.is_suppressed = false ∨ o.include_suppressed = true) →
      resolve_ref G occ.ref = some c →
      (c.is_content_center = false ∨ o.include_content_center = true) →
      Reachable G o root c

theorem reachable_mem (G : List InvDoc) (o : WalkOptions) (root : InvDoc)
    (hroot : root ∈ G) : ∀ n, Reachable G o root n → n ∈ G := by
  intro n h
  induction h with
  | base => exact hroot
  | step p occ c hp hdesc hocc hsup hres hcc ih =>
    exact resolve_ref_mem G occ.ref c hres

/-- Completeness invariant of the depth-unlimited traversal loop: with
enough fuel, (1) every eligible occurrence of the processed list gets
its child's key into the final visited list, and (2) every graph
document whose key enters the visited list during the loop and is not
content-center excluded is emitted (under the default kind filters)
and, if an assembly, has all its eligible children's keys in the final
visited list. -/
theorem walkFuel_complete_inv (G : List InvDoc) (o : WalkOptions)
    (hmd : o.max_depth = none) (hnodup : (G.map pathKey).Nodup) :
    ∀ (f : Nat) (occs : List Occurrence) (d : Nat) (v : List String),
      phi G v occs ≤ f →
      (∀ occ ∈ occs,
        (occ.is_suppressed = false ∨ o.include_suppressed = true) →
        ∀ c, resolve_ref G occ.ref = some c →
          pathKey c ∈ (walkFuel G o f occs d v).1) ∧
      (∀ c ∈ G, pathKey c ∉ v → pathKey c ∈ (walkFuel G o f occs d v).1 →
        (c.is_content_center = false ∨ o.include_content_center = true) →
        ((o.include_parts = true → o.include_assemblies = true →
            ∃ comp ∈ (walkFuel G o f occs d v).2, comp.document = c) ∧
          (c.is_assembly = true →
            ∀ occ ∈ c.occurrences,
              (occ.is_suppressed = false ∨ o.include_suppressed = true) →
              ∀ c', resolve_ref G occ.ref = some c' →
                pathKey c' ∈ (walkFuel G o f occs d v).1))) := by
  intro f occs d v
  induction f, occs, d, v using walkFuel.induct G o with
  | case1 occs d v =>
    intro hphi
    exfalso
    unfold phi at hphi
    omega
  | case2 f d v =>
    intro hphi
    constructor
    · intro occ hocc
      exact absurd hocc (List.not_mem_nil occ)
    · intro c hcG hcv hcin hccok
      exact absurd hcin hcv
  | case3 f occ rest d v h1 ih =>
    intro hphi
    have hphi' : phi G v rest ≤ f := by
      unfold phi at hphi ⊢
      simp only [List.length_cons] at hphi
      omega
    rw [walkFuel_cons_sup G o f occ rest d v h1]
    refine ⟨?_, (ih hphi').2⟩
    intro occ' hocc' hsup' c hres
    rcases List.mem_cons.mp hocc' with he | ht
    · subst he
      rcases hsup' with hs | hs <;> rw [hs] at h1 <;> simp at h1
    · exact (ih hphi').1 occ' ht hsup' c hres
  | case4 f occ rest d v h1 h2 ih =>
    intro hphi
    have hphi' : phi G v rest ≤ f := by
      unfold phi at hphi ⊢
      simp only [List.length_cons] at hphi
      omega
    rw [walkFuel_cons_none G o f occ rest d v h1 h2]
    refine ⟨?_, (ih hphi').2⟩
    intro occ' hocc' hsup' c hres
    rcases List.mem_cons.mp hocc' with he | ht
    · subst he
      rw [h2] at hres
      exact absurd hres (by simp)
    · exact (ih hphi').1 occ' ht hsup' c hres
  | case5 f occ rest d v h1 rd h2 h3 ih =>
    intro hphi
    have hphi' : phi G v rest ≤ f := by
      unfold phi at hphi ⊢
      simp only [List.length_cons] at hphi
      omega
    rw [walkFuel_cons_visited G o f occ rest d v rd h1 h2 h3]
    refine ⟨?_, (ih hphi').2⟩
    intro occ' hocc' hsup' c hres
    rcases List.mem_cons.mp hocc' with he | ht
    · subst he
      rw [h2] at hres
      have hcrd : c = rd := (Option.some.inj hres).symm
      rw [hcrd]
      exact walkFuel_vis_mono G o f rest d v h3
    · exact (ih hphi').1 occ' ht hsup' c hres
  | case6 f occ rest d v h1 rd h2 h3 h4 ih =>
    intro hphi
    have hkG : pathKey rd ∈ uKeys G :=
      mem_uKeys_of_mem G rd (resolve_ref_mem G occ.ref rd h2)
    have hfc := freeCount_cons_succ_le G v (pathKey rd) hkG h3
    have hmul := Nat.mul_le_mul_right (maxOccs G + 1) hfc
    rw [Nat.succ_mul] at hmul
    have hphi' : phi G (pathKey rd :: v) rest ≤ f := by
      unfold phi at hphi ⊢
      simp only [List.length_cons] at hphi
      omega
    rw [walkFuel_cons_cc G o f occ rest d v rd h1 h2 h3 h4]
    refine ⟨?_, ?_⟩
    · intro occ' hocc' hsup' c hres
      rcases List.mem_cons.mp hocc' with he | ht
      · subst he
        rw [h2] at hres
        have hcrd : c = rd := (Option.some.inj hres).symm
        rw [hcrd]
        exact walkFuel_vis_mono G o f rest d (pathKey rd :: v)
          (List.mem_cons_self _ _)
      · exact (ih hphi').1 occ' ht hsup' c hres
    · intro c hcG hcv hcin hccok
      by_cases hck : pathKey c = pathKey rd
      · exfalso
        have hceq : c = rd := List.inj_on_of_nodup_map hnodup hcG
          (resolve_ref_mem G occ.ref rd h2) hck
        subst hceq
        rcases hccok with hcc | hcc <;> rw [hcc] at h4 <;> simp at h4
      · have hcv' : pathKey c ∉ (pathKey rd :: v) := by
          intro hx
          rcases List.mem_cons.mp hx with hx' | hx'
          · exact hck hx'
          · exact hcv hx'
        exact (ih hphi').2 c hcG hcv' hcin hccok
  | case7 f occ rest d v h1 rd h2 h3 h4 subv ihsub =>
    rename_i ihcont
    intro hphi
    have hGrd := resolve_ref_mem G occ.ref rd h2
    have hkG : pathKey rd ∈ uKeys G := mem_uKeys_of_mem G rd hGrd
    have hfc := freeCount_cons_succ_le G v (pathKey rd) hkG h3
    have hmul := Nat.mul_le_mul_right (maxOccs G + 1) hfc
    rw [Nat.succ_mul] at hmul
    have hM := occs_le_maxOccs G rd hGrd
    have hphisub : phi G (pathKey rd :: v) rd.occurrences ≤ f := by
      unfold phi at hphi ⊢
      simp only [List.length_cons] at hphi
      omega
    rw [walkFuel_cons_main G o f occ rest d v rd h1 h2 h3 h4]
    rw [show (if (rd.is_assembly && depthAllows o.max_depth d) = true then
        walkFuel G o f rd.occurrences (d + 1) (pathKey rd :: v)
      else (pathKey rd :: v, ([] : List DiscoveredComponent))) = subv from rfl]
    have hda : depthAllows o.max_depth d = true := by
      rw [hmd]
      rfl
    have hsubv_asm : rd.is_assembly = true →
        subv = walkFuel G o f rd.occurrences (d + 1) (pathKey rd :: v) := by
      intro ha
      show (if (rd.is_assembly && depthAllows o.max_depth d) = true then
          walkFuel G o f rd.occurrences (d + 1) (pathKey rd :: v)
        else (pathKey rd :: v, [])) = _
      rw [if_pos (by rw [ha, hda]; rfl)]
    have hsubv_not : rd.is_assembly = false →
        subv = (pathKey rd :: v, ([] : List DiscoveredComponent)) := by
      intro ha
      show (if (rd.is_assembly && depthAllows o.max_depth d) = true then
          walkFuel G o f rd.occurrences (d + 1) (pathKey rd :: v)
        else (pathKey rd :: v, [])) = _
      rw [if_neg (by rw [ha]; simp)]
    have hsv_sub : (pathKey rd :: v) ⊆ subv.1 := by
      cases hasm : rd.is_assembly with
      | false =>
        rw [hsubv_not hasm]
        exact List.Subset.refl _
      | true =>
        rw [hsubv_asm hasm]
        exact walkFuel_vis_mono G o f rd.occurrences (d + 1) _
    have hv_cont : subv.1 ⊆ (walkFuel G o f rest d subv.1).1 :=
      walkFuel_vis_mono G o f rest d subv.1
    have hfcW : freeCount G subv.1 ≤ freeCount G (pathKey rd :: v) :=
      freeCount_anti G _ _ hsv_sub
    have hphicont : phi G subv.1 rest ≤ f := by
      unfold phi at hphi ⊢
      simp only [List.length_cons] at hphi
      have hmul2 := Nat.mul_le_mul_right (maxOccs G + 1)
        (show freeCount G subv.1 + 1 ≤ freeCount G v by omega)
      rw [Nat.succ_mul] at hmul2
      omega
    have Hcont := ihcont hphicont
    refine ⟨?_, ?_⟩
    · intro occ' hocc' hsup' c hres
      rcases List.mem_cons.mp hocc' with he | ht
      · subst he
        rw [h2] at hres
        have hcrd : c = rd := (Option.some.inj hres).symm
        rw [hcrd]
        exact hv_cont (hsv_sub (List.mem_cons_self _ _))
      · exact Hcont.1 occ' ht hsup' c hres
    · intro c hcG hcv hcin hccok
      by_cases hck : pathKey c = pathKey rd
      · have hceq : c = rd := List.inj_on_of_nodup_map hnodup hcG hGrd hck
        subst hceq
        refine ⟨?_, ?_⟩
        · intro hip hia
          have hemit : emitComp o c occ.is_suppressed d =
              [{ document := c, is_suppressed := occ.is_suppressed, depth := d }] := by
            unfold emitComp
            rw [if_pos (by cases hasm : c.is_assembly <;> simp [hasm, hip, hia])]
          refine ⟨{ document := c, is_suppressed := occ.is_suppressed, depth := d },
            ?_, rfl⟩
          exact List.mem_append.mpr (Or.inl (List.mem_append.mpr (Or.inl
            (by rw [hemit]; exact List.mem_cons_self _ _))))
        · intro hasm occ'' hocc'' hsup'' c'' hres''
          apply hv_cont
          rw [hsubv_asm hasm]
          exact (ihsub hphisub).1 occ'' hocc'' hsup'' c'' hres''
      · have hcv' : pathKey c ∉ (pathKey rd :: v) := by
          intro hx
          rcases List.mem_cons.mp hx with hx' | hx'
          · exact hck hx'
          · exact hcv hx'
        by_cases hcsub : pathKey c ∈ subv.1
        · cases hasm : rd.is_assembly with
          | false =>
            exfalso
            rw [hsubv_not hasm] at hcsub
            exact hcv' hcsub
          | true =>
            have hse := hsubv_asm hasm
            rw [hse] at hcsub
            have Hc := (ihsub hphisub).2 c hcG hcv' hcsub hccok
            refine ⟨?_, ?_⟩
            · intro hip hia
              obtain ⟨comp, hcm, hdoc⟩ := Hc.1 hip hia
              refine ⟨comp, ?_, hdoc⟩
              exact List.mem_append.mpr (Or.inl (List.mem_append.mpr (Or.inr
                (by rw [hse]; exact hcm))))
            · intro hca occ'' hocc'' hsup'' c'' hres''
              apply hv_cont
              rw [hse]
              exact Hc.2 hca occ'' hocc'' hsup'' c'' hres''
        · have Hc := Hcont.2 c hcG hcsub hcin hccok
          refine ⟨?_, Hc.2⟩
          intro hip hia
          obtain ⟨comp, hcm, hdoc⟩ := Hc.1 hip hia
          exact ⟨comp, List.mem_append.mpr (Or.inr hcm), hdoc⟩

/-- C6 (confirmed): depth limiting stops descent, not emission — with
`max_depth = k` every emitted component has depth at most `k` (so
nodes at exactly the limit are emitted, their children are not
explored); `Walk(root, max_depth=1)` is exactly the root plus its
direct (non-filtered) children — one spec-side pass `oneLevel` over
the root's occurrences — and `max_depth = None` (with the default kind
filters, on a graph with distinct normalized paths) emits every
reachable node. -/
theorem c6_depth_limit_and_completeness (G : List InvDoc) (root : InvDoc)
    (o : WalkOptions) :
    (∀ k, o.max_depth = some k →
      ∀ comp ∈ walk_assembly G root o, comp.depth ≤ k) ∧
    (o.max_depth = some 1 →
      walk_assembly G root o =
        rootComponent root :: oneLevel G o root.occurrences [pathKey root]) ∧
    (o.max_depth = none → o.include_parts = true → o.include_assemblies = true →
      (G.map pathKey).Nodup → root ∈ G →
      ∀ n, Reachable G o root n →
        ∃ comp ∈ walk_assembly G root o, comp.document = n) := by
  refine ⟨?_, ?_, ?_⟩
  · intro k hk comp hcomp
    unfold walk_assembly at hcomp
    rw [walkAssemblyFuel_some G root o _ k hk] at hcomp
    by_cases h1k : 1 > k
    · rw [if_pos h1k] at hcomp
      rcases List.mem_cons.mp hcomp with he | he
      · rw [he]
        exact Nat.zero_le k
      · exact absurd he (List.not_mem_nil comp)
    · rw [if_neg h1k] at hcomp
      rcases List.mem_cons.mp hcomp with he | he
      · rw [he]
        exact Nat.zero_le k
      · exact (walkFuel_emit G o (startFuel G root) root.occurrences 1
          [pathKey root]).2.2 k hk (by omega) comp he
  · intro h1
    unfold walk_assembly
    rw [walkAssemblyFuel_some G root o _ 1 h1, if_neg (by omega)]
    rw [walkFuel_depth1 G o h1 root.occurrences (startFuel G root) [pathKey root]
      (by unfold startFuel; omega)]
  · intro hmdn hip hia hnd hrG n hreach
    have hw : walk_assembly G root o = rootComponent root ::
        (walkFuel G o (startFuel G root) root.occurrences 1 [pathKey root]).2 := by
      unfold walk_assembly
      exact walkAssemblyFuel_none G root o _ hmdn
    have hphi : phi G [pathKey root] root.occurrences ≤ startFuel G root := by
      unfold phi startFuel
      have hm := Nat.mul_le_mul_right (maxOccs G + 1)
        (freeCount_le_uKeys G [pathKey root])
      omega
    have Inv := walkFuel_complete_inv G o hmdn hnd (startFuel G root)
      root.occurrences 1 [pathKey root] hphi
    have key : ∀ m, Reachable G o root m →
        pathKey m ∈ (walkFuel G o (startFuel G root) root.occurrences 1
          [pathKey root]).1 ∧
        (∃ comp ∈ walk_assembly G root o, comp.document = m) ∧
        (m = root ∨ (m.is_content_center = false ∨
          o.include_content_center = true)) := by
      intro m hm
      induction hm with
      | base =>
        refine ⟨?_, ⟨rootComponent root, ?_, rfl⟩, Or.inl rfl⟩
        · exact walkFuel_vis_mono G o _ _ _ _ (List.mem_cons_self _ _)
        · rw [hw]
          exact List.mem_cons_self _ _
      | step p occ c hp hdesc hocc hsup hres hcc ih =>
        have hpG : p ∈ G := reachable_mem G o root hrG p hp
        have hcG : c ∈ G := resolve_ref_mem G occ.ref c hres
        have hkc : pathKey c ∈ (walkFuel G o (startFuel G root)
            root.occurrences 1 [pathKey root]).1 := by
          by_cases hpr : p = root
          · subst hpr
            exact Inv.1 occ hocc hsup c hres
          · have hkp : pathKey p ∉ [pathKey root] := by
              intro hx
              rcases List.mem_cons.mp hx with hx' | hx'
              · exact hpr (List.inj_on_of_nodup_map hnd hpG hrG hx')
              · exact absurd hx' (List.not_mem_nil _)
            have hccp : p.is_content_center = false ∨
                o.include_content_center = true := by
              rcases ih.2.2 with h | h
              · exact absurd h hpr
              · exact h
            have hpasm : p.is_assembly = true := by
              rcases hdesc with h | h
              · exact absurd h hpr
              · exact h
            exact (Inv.2 p hpG hkp ih.1 hccp).2 hpasm occ hocc hsup c hres
        refine ⟨hkc, ?_, Or.inr hcc⟩
        by_cases hcr : c = root
        · subst hcr
          refine ⟨rootComponent c, ?_, rfl⟩
          rw [hw]
          exact List.mem_cons_self _ _
        · have hkcr : pathKey c ∉ [pathKey root] := by
            intro hx
            rcases List.mem_cons.mp hx with hx' | hx'
            · exact hcr (List.inj_on_of_nodup_map hnd hcG hrG hx')
            · exact absurd hx' (List.not_mem_nil _)
          obtain ⟨comp, hcm, hdoc⟩ := (Inv.2 c hcG hkcr hkc hcc).1 hip hia
          refine ⟨comp, ?_, hdoc⟩
          rw [hw]
          exact List.mem_cons_of_mem _ hcm
    exact (key n hreach).2.1

/-- C6 (witness): the theorem applied at concrete graphs — the depth
bound and the `max_depth = 1` characterization at the two-document
graph, and completeness for the reachable part `plainPart` with
`max_depth = None`. -/
theorem c6_witness :
    (⟨plainPart, false, false, 1⟩ : DiscoveredComponent).depth ≤ 1 ∧
    walk_assembly plainG plainRoot { max_depth := some 1 } =
      rootComponent plainRoot ::
        oneLevel plainG { max_depth := some 1 } plainRoot.occurrences
          [pathKey plainRoot] ∧
    ∃ comp ∈ walk_assembly plainG plainRoot {}, comp.document = plainPart := by
  refine ⟨?_, ?_, ?_⟩
  · exact (c6_depth_limit_and_completeness plainG plainRoot
      { max_depth := some 1 }).1 1 rfl
      ⟨plainPart, false, false, 1⟩ (by decide)
  · exact (c6_depth_limit_and_completeness plainG plainRoot
      { max_depth := some 1 }).2.1 rfl
  · exact (c6_depth_limit_and_completeness plainG plainRoot {}).2.2 rfl rfl rfl
      (by decide) (by decide) plainPart
      (Reachable.step plainRoot
        { is_suppressed := false, ref := some "c:\\plain.ipt" } plainPart
        Reachable.base (Or.inl rfl) (by decide) (Or.inl rfl) (by decide)
        (Or.inl rfl))

end InventorScripts
